import Mathlib

/-!
Verification of the code-graph index and hybrid-retrieval engine of the
`jules_rag` repository, against its natural-language specification.

The development shallowly embeds the relevant Python modules:

* `src/code_intelligence/db.py`     — the SQLite `Database` class: the
  `nodes` table (primary key `id`), the `nodes_fts` full-text shadow
  (an FTS5 virtual table, which enforces *no* uniqueness on its columns),
  the `edges` table (primary key `(source_id, target_id, relationship)`),
  the `embeddings` table (primary key `(node_id, model)`) and the
  `file_hashes` table (primary key `filepath`).  Tables are modelled as
  Lean lists of rows in table order; `INSERT OR REPLACE` against a table
  with a primary key is modelled as delete-matching-then-append, and
  against the FTS5 table (no constraint) as a plain append, which is the
  documented SQLite behaviour.  The `index_runs` / `repo_maps` /
  `repo_map_entries` tables are not modelled: no claim refers to them and
  no modelled operation reads them.
* `src/code_intelligence/indexing.py` — `FileIndexer._process_file`,
  `FileIndexer.index_workspace`, `FileIndexer._generate_embeddings` and
  `FileIndexer._create_node`.  The tree-sitter parser and the sha256
  content hash are external capabilities and are passed in as function
  parameters (`parse`, `hashFn`); the embedding provider likewise
  (`embedFn`, and `toF32` for the float32 conversion performed by
  `numpy`).  The ANN sidecar rebuild writes only files on disk, never the
  database, and is therefore not part of the database state.
* `src/code_intelligence/retrieval.py` — `RetrievalEngine.retrieve` and
  its stages `_expand_graph`, `_boost_centrality`, `_rerank`,
  `_llm_rerank` and `_mmr`.  Scores are modelled as rationals; the only
  irrational the code computes, `np.log(1 + count)` in the centrality
  boost, is passed in as a function parameter `lnFn`, and the external
  FTS5 MATCH, the dense-search stage and the LLM rerank call are passed
  in as oracles returning `Except` values (an `Except.error` models the
  Python exception the corresponding call can raise).

Python `list.sort` is a stable comparison sort; it is modelled with
insertion sort.  Every theorem proved below is insensitive to the order
of equal-score candidates, and every concrete input used in a
counterexample or witness has pairwise-distinct scores, so the
tie-breaking order never matters.
-/

namespace JulesRag

/-- A row of the `nodes` table (and the `CodeNode` dataclass of `db.py`).
The Next.js metadata columns, the `properties` JSON map and the
`git_sha`/`repo_id` columns are carried by no claim and are omitted; every
modelled operation copies them verbatim alongside the fields kept here. -/
structure CodeNode where
  id : String
  type : String
  name : String
  filepath : String
  start_line : Int
  end_line : Int
  content : String
deriving DecidableEq, Repr, Inhabited

/-- A row of the `nodes_fts` FTS5 shadow table:
`(id, name, content, filepath, symbol_kind)` (the two Next.js columns are
omitted, as on `CodeNode`). -/
structure FtsRow where
  id : String
  name : String
  content : String
  filepath : String
  symbol_kind : String
deriving DecidableEq, Repr, Inhabited

/-- The FTS5 row mirrored for a node by `add_node` / `batch_add_nodes`:
`(node.id, node.name, node.content, node.filepath, node.type)`. -/
def ftsRowOf (n : CodeNode) : FtsRow :=
  ⟨n.id, n.name, n.content, n.filepath, n.type⟩

/-- A row of the `edges` table. -/
structure EdgeRow where
  source_id : String
  target_id : String
  relationship : String
  props : String
deriving DecidableEq, Repr, Inhabited

/-- A row of the `embeddings` table.  The `vector BLOB` column holds the
bytes of a float32 array; it is modelled as the list of the stored
float32 values. -/
structure EmbRow where
  node_id : String
  model : String
  vec : List ℚ
  dim : Nat
deriving DecidableEq, Repr, Inhabited

/-- The database state: one list of rows per modelled table, in table
order. -/
structure DBState where
  nodes : List CodeNode
  fts : List FtsRow
  edges : List EdgeRow
  embeddings : List EmbRow
  fileHashes : List (String × String)
deriving DecidableEq, Repr, Inhabited

/-- The empty database (fresh after `_migrate`). -/
def DBState.empty : DBState := ⟨[], [], [], [], []⟩

/-- `Database.get_node`: `SELECT ... FROM nodes WHERE id = ?`, first row. -/
def getNode (st : DBState) (nid : String) : Option CodeNode :=
  st.nodes.find? (fun n => n.id == nid)

/-- `Database.add_node`: `INSERT OR REPLACE INTO nodes` (primary key `id`,
so a conflicting row is deleted and the new row inserted), then
`INSERT OR REPLACE INTO nodes_fts` — `nodes_fts` is an FTS5 virtual table
with no uniqueness constraint, so this insert always appends a new row. -/
def addNode (st : DBState) (n : CodeNode) : DBState :=
  { st with
    nodes := st.nodes.filter (fun m => m.id != n.id) ++ [n]
    fts := st.fts ++ [ftsRowOf n] }

/-- `Database.batch_add_nodes`: `executemany` of the two statements of
`add_node`, row by row. -/
def batchAddNodes (st : DBState) (ns : List CodeNode) : DBState :=
  ns.foldl addNode st

/-- `Database.add_edge`: `INSERT OR REPLACE INTO edges` with primary key
`(source_id, target_id, relationship)`. -/
def addEdge (st : DBState) (e : EdgeRow) : DBState :=
  { st with
    edges := st.edges.filter (fun f =>
      !(f.source_id == e.source_id && f.target_id == e.target_id &&
        f.relationship == e.relationship)) ++ [e] }

/-- `Database.get_file_hash`. -/
def getFileHash (st : DBState) (fp : String) : Option String :=
  (st.fileHashes.find? (fun p => p.1 == fp)).map (·.2)

/-- `Database.set_file_hash`: `INSERT OR REPLACE` keyed by `filepath`. -/
def setFileHash (st : DBState) (fp h : String) : DBState :=
  { st with fileHashes := st.fileHashes.filter (fun p => p.1 != fp) ++ [(fp, h)] }

/-- The ids collected by `delete_nodes_by_filepath` before it deletes:
`SELECT id FROM nodes WHERE filepath = ?`. -/
def deletedIds (st : DBState) (fp : String) : List String :=
  (st.nodes.filter (fun n => n.filepath == fp)).map (·.id)

/-- `Database.delete_nodes_by_filepath`: collect the ids of the file's
nodes; if none, return; otherwise delete the nodes by filepath, then the
`nodes_fts`, `embeddings` and `edges` rows keyed by any collected id
(edges in both directions). -/
def deleteNodesByFilepath (st : DBState) (fp : String) : DBState :=
  let ids := deletedIds st fp
  if ids.isEmpty then st
  else
    { st with
      nodes := st.nodes.filter (fun n => n.filepath != fp)
      fts := st.fts.filter (fun r => !(ids.contains r.id))
      embeddings := st.embeddings.filter (fun e => !(ids.contains e.node_id))
      edges := st.edges.filter (fun e =>
        !(ids.contains e.source_id) && !(ids.contains e.target_id)) }

/-- `Database.upsert_embedding`: the vector is converted to float32
(`np.asarray(vector, dtype=np.float32)`, modelled by mapping the ambient
float32 conversion `toF32` over the entries), its byte serialization is
stored together with `dim = vec.shape[0]`, via `INSERT OR REPLACE` keyed
by `(node_id, model)`. -/
def upsertEmbedding (toF32 : ℚ → ℚ) (st : DBState) (nid model : String)
    (v : List ℚ) : DBState :=
  let vec := v.map toF32
  { st with
    embeddings := st.embeddings.filter (fun e =>
      !(e.node_id == nid && e.model == model)) ++ [⟨nid, model, vec, vec.length⟩] }

/-- `Database.get_embedding`: select `(vector, dim)` for the key; decode
the blob as a float32 array; if `dim` is non-zero (Python truthiness) and
the decoded length differs, truncate to `dim`. -/
def getEmbedding (st : DBState) (nid model : String) : Option (List ℚ) :=
  match st.embeddings.find? (fun e => e.node_id == nid && e.model == model) with
  | none => none
  | some row =>
      let vec := row.vec
      some (if row.dim ≠ 0 ∧ vec.length ≠ row.dim then vec.take row.dim else vec)

/-- The quote-doubling `safe_query = query.replace('"', '""')` performed
by `Database.search_nodes` before the first MATCH (the pattern is a
single character, so the replacement acts character-wise). -/
def pySafeQuery (q : String) : String :=
  String.mk ((q.toList.map (fun c =>
    if c = Char.ofNat 34 then [Char.ofNat 34, Char.ofNat 34] else [c])).flatten)

/-- The defensive re-sanitization of `search_nodes`:
`"".join(c for c in safe_query if c.isalnum() or c.isspace())`. -/
def pySanitize (s : String) : String :=
  String.mk (s.toList.filter (fun c => c.isAlphanum || c.isWhitespace))

/-- `Database.search_nodes`.  The FTS5 `MATCH ... ORDER BY bm25 ... LIMIT`
query is an external capability of SQLite and is passed in as the oracle
`fts : query → limit → Except String (List String)`, an `Except.error`
modelling the `sqlite3.OperationalError` a malformed query raises.  The
first MATCH runs on the quote-doubled query; on failure the sanitized
query is retried — this second `cursor.execute` is *not* inside a
`try`/`except`, so its failure propagates out of `search_nodes`.  The
returned ids are resolved through `get_node`, dropping misses. -/
def searchNodes (st : DBState) (fts : String → Nat → Except String (List String))
    (query : String) (limit : Nat) : Except String (List CodeNode) :=
  match fts (pySafeQuery query) limit with
  | .ok ids => .ok (ids.filterMap (getNode st))
  | .error _ =>
      match fts (pySanitize (pySafeQuery query)) limit with
      | .ok ids => .ok (ids.filterMap (getNode st))
      | .error e => .error e

/-! ### FileIndexer._create_node (`indexing.py`) -/

/-- Splitting a character list on a separator character, keeping empty
pieces (the behaviour of `str.split('\n')`). -/
def splitOnChar (c : Char) : List Char → List (List Char)
  | [] => [[]]
  | x :: xs =>
      let r := splitOnChar c xs
      if x = c then [] :: r
      else
        match r with
        | [] => [[x]]
        | h :: t => (x :: h) :: t

/-- Python `str.splitlines` restricted to `\n` line boundaries (the only
boundary produced by the indexer's utf-8 file reads): split on `\n` and
drop the trailing empty piece a terminating newline would produce. -/
def pySplitlines (s : String) : List String :=
  if s = "" then []
  else
    let parts := (splitOnChar (Char.ofNat 10) s.toList).map (fun l => String.mk l)
    if parts.getLast? = some "" then parts.dropLast else parts

/-- A Python list slice `l[a : b]` for `a : ℕ` and a possibly negative
stop `b` (a negative stop counts from the end of the list). -/
def pySlice (l : List String) (a : Nat) (b : Int) : List String :=
  let stop : Int := if b < 0 then (l.length : Int) + b else b
  (l.take stop.toNat).drop a

/-- The node id minted by `_create_node`:
`f"{filepath}:{start_line}-{end_line}"` over the clamped line numbers. -/
def mkNodeId (filepath : String) (s e : Int) : String :=
  filepath ++ ":" ++ toString s ++ "-" ++ toString e

/-- `FileIndexer._create_node`: clamp `start_line` to `max 0` and
`end_line` to `min (number of lines)`, slice the chunk text
`lines[start_line : end_line + 1]`, and mint the id from the relative
filepath and the clamped line range. -/
def createNode (filepath full_content : String) (start_line end_line : Int)
    (type name : String) : CodeNode :=
  let lines := pySplitlines full_content
  let s := max 0 start_line
  let e := min (lines.length : Int) end_line
  let chunk := String.intercalate "\n" (pySlice lines s.toNat (e + 1))
  { id := mkNodeId filepath s e
    type := type
    name := name
    filepath := filepath
    start_line := s
    end_line := e
    content := chunk }

/-! ### RetrievalEngine (`retrieval.py`) -/

/-- The `SearchResult` dataclass of `retrieval.py`. -/
structure SR where
  node : CodeNode
  score : ℚ
  reason : String
deriving DecidableEq, Repr, Inhabited

/-- Descending-score order on search results (`key=lambda x: x.score,
reverse=True`). -/
def scoreGe (a b : SR) : Prop := b.score ≤ a.score

instance : DecidableRel scoreGe :=
  fun a b => inferInstanceAs (Decidable (b.score ≤ a.score))

instance : IsTotal SR scoreGe := ⟨fun a b => le_total b.score a.score⟩

instance : IsTrans SR scoreGe := ⟨fun _ _ _ hab hbc => le_trans hbc hab⟩

/-- The in-place `candidates.sort(key=lambda x: x.score, reverse=True)`. -/
def sortDesc (l : List SR) : List SR := l.insertionSort scoreGe

/-- A Python dict assignment `all_results[r.node.id] = r`: replace the
entry in place if the key exists, else append (insertion order). -/
def dictInsert (acc : List SR) (r : SR) : List SR :=
  if acc.any (fun x => x.node.id == r.node.id) then
    acc.map (fun x => if x.node.id == r.node.id then r else x)
  else acc ++ [r]

/-- The sparse loop of `retrieve`:
`for i, node in enumerate(sparse_nodes): all_results[node.id] =
SearchResult(node, 1.0 / (i + 1), "sparse")`, entered with counter `i`. -/
def sparseInto (acc : List SR) (i : Nat) : List CodeNode → List SR
  | [] => acc
  | n :: rest =>
      sparseInto (dictInsert acc ⟨n, 1 / ((i : ℚ) + 1), "sparse"⟩) (i + 1) rest

/-- One iteration of the dense loop of `retrieve` (the CombSUM fusion):
an already-present id gets its score increased by the dense similarity
and its reason set to `"hybrid"`; a new id is appended with the dense
similarity and reason `"dense"`. -/
def combSumStep (acc : List SR) (n : CodeNode) (s : ℚ) : List SR :=
  if acc.any (fun x => x.node.id == n.id) then
    acc.map (fun x =>
      if x.node.id == n.id then { x with score := x.score + s, reason := "hybrid" }
      else x)
  else acc ++ [⟨n, s, "dense"⟩]

/-- The dense loop of `retrieve` over the `(node, score)` hits of
`_dense_search`. -/
def denseInto (acc : List SR) : List (CodeNode × ℚ) → List SR
  | [] => acc
  | (n, s) :: rest => denseInto (combSumStep acc n s) rest

/-- The type hop of `_expand_graph` for one seed: follow outgoing
`uses_type` edges; for a symbolic target `symbol:<name>`, find the first
node named `<name>` (`SELECT id FROM nodes WHERE name = ? LIMIT 1`), and
if its id is unseen fetch it via `get_node` and append it at 0.4 times
the seed's score.  The state is `(expanded, seen)`. -/
def expandTypeHop (st : DBState) (cand : SR) (acc : List SR × List String) :
    List SR × List String :=
  let typeTargets := (st.edges.filter (fun e =>
    e.source_id == cand.node.id && e.relationship == "uses_type")).map (·.target_id)
  typeTargets.foldl (fun p tid =>
    if tid.startsWith "symbol:" then
      let typeName := tid.drop 7
      match st.nodes.find? (fun n => n.name == typeName) with
      | some row =>
          if p.2.contains row.id then p
          else
            match getNode st row.id with
            | some node =>
                (p.1 ++ [⟨node, cand.score * (2 / 5), "defines-type:" ++ typeName⟩],
                 p.2 ++ [row.id])
            | none => p
      | none => p
    else p) acc

/-- The caller hop of `_expand_graph` for one seed: the first `limit`
incoming `calls` edges on `symbol:<seed name>`; each unseen caller is
fetched via `get_node` and appended at 0.5 times the seed's score. -/
def expandCallerHop (st : DBState) (limit : Nat) (cand : SR)
    (acc : List SR × List String) : List SR × List String :=
  let symbolId := "symbol:" ++ cand.node.name
  let callerIds := ((st.edges.filter (fun e =>
    e.target_id == symbolId && e.relationship == "calls")).map (·.source_id)).take limit
  callerIds.foldl (fun p cid =>
    if p.2.contains cid then p
    else
      match getNode st cid with
      | some node => (p.1 ++ [⟨node, cand.score * (1 / 2), "caller"⟩], p.2 ++ [cid])
      | none => p) acc

/-- `RetrievalEngine._expand_graph`: seeds are the top 3 candidates, the
seen set starts as the ids of *all* candidates, and each seed contributes
its type hop then its caller hop. -/
def expandGraph (st : DBState) (candidates : List SR) (limit : Nat) : List SR :=
  let seen := candidates.map (·.node.id)
  let seeds := candidates.take 3
  (seeds.foldl (fun acc cand =>
    expandCallerHop st limit cand (expandTypeHop st cand acc)) ([], seen)).1

/-- `RetrievalEngine._boost_centrality`: count incoming `calls` edges on
`symbol:<name>`; a positive count multiplies the score by
`1 + 0.1 * log(1 + count)`.  The natural logarithm `np.log (1 + count)`
is the one irrational quantity in the engine and is supplied as the
function parameter `lnFn count`. -/
def boostCentrality (st : DBState) (lnFn : Nat → ℚ) (candidates : List SR) :
    List SR :=
  candidates.map (fun c =>
    let count := (st.edges.filter (fun e =>
      e.target_id == "symbol:" ++ c.node.name && e.relationship == "calls")).length
    if 0 < count then
      { c with
        score := c.score * (1 + (1 / 10) * lnFn count)
        reason := c.reason ++ " +centrality(" ++ toString count ++ ")" }
    else c)

/-- Python `str.lower()`, character-wise. -/
def pyLower (s : String) : String :=
  String.mk (s.toList.map Char.toLower)

/-- Splitting a character list at every separator satisfying `p`, keeping
empty pieces. -/
def splitOnPred (p : Char → Bool) : List Char → List (List Char)
  | [] => [[]]
  | x :: xs =>
      let r := splitOnPred p xs
      if p x then [] :: r
      else
        match r with
        | [] => [[x]]
        | h :: t => (x :: h) :: t

/-- Python `query.lower().split()`: lower-case, split on whitespace, drop
the empty pieces whitespace runs produce. -/
def pyLowerSplit (q : String) : List String :=
  ((splitOnPred Char.isWhitespace (pyLower q).toList).map
    (fun l => String.mk l)).filter (fun s => s ≠ "")

/-- Python substring containment `pat in s`. -/
def strContains (s pat : String) : Bool :=
  s.toList.tails.any (fun t => pat.toList.isPrefixOf t)

/-- The heuristic phase of `_rerank` on one candidate: a query term
occurring in the lower-cased name multiplies the score by 1.2, and the
verbatim query occurring in the content multiplies it by 1.5. -/
def heuristicBoost (query : String) (c : SR) : SR :=
  let terms := pyLowerSplit query
  let nameLower := pyLower c.node.name
  let c1 :=
    if terms.any (fun t => strContains nameLower t) then
      { c with score := c.score * (6 / 5) }
    else c
  if strContains c.node.content query then { c1 with score := c1.score * (3 / 2) }
  else c1

/-- The index-application loop of `_llm_rerank`: each in-range index
appends the corresponding candidate with score `50 - #already_ranked` and
reason `"llm-rerank"` and marks the index seen; candidates at unseen
indices follow in their prior relative order.  (CPython mutates the
`SearchResult` objects in place, so a *duplicated* index would alias the
same object under both of its list entries; this model copies instead.
No theorem below reads the scores of duplicate-index entries.) -/
def llmRerankStep (top : List SR) (p : List SR × List Nat) (idx : Int) :
    List SR × List Nat :=
  if 0 ≤ idx ∧ idx < (top.length : Int) then
    match top.get? idx.toNat with
    | some c =>
        (p.1 ++ [{ c with score := 50 - (p.1.length : ℚ), reason := "llm-rerank" }],
         p.2 ++ [idx.toNat])
    | none => p
  else p

def llmRerankApply (top : List SR) (indices : List Int) : List SR :=
  let step := indices.foldl (llmRerankStep top) ([], [])
  step.1 ++ (top.enum.filter (fun q => !(step.2.contains q.1))).map (·.2)

/-- `RetrievalEngine._rerank`: boost heuristically, sort descending, take
the top 10 for the LLM; an empty top, an LLM exception, or an unparsable
LLM response all yield the sorted candidates unchanged; otherwise the
LLM's index permutation is applied to the top 10 and the remainder is
appended.  The LLM call is the oracle `llm`; an unparsable response and a
raised exception both land in its `Except.error` case because both code
paths return the same value. -/
def rerank (query : String) (llm : Except Unit (List Int))
    (candidates : List SR) : List SR :=
  let cands := sortDesc (candidates.map (heuristicBoost query))
  let top := cands.take 10
  if top.isEmpty then cands
  else
    match llm with
    | .error _ => cands
    | .ok indices => llmRerankApply top indices ++ cands.drop 10

/-- An argmax scan with strict improvement (`if mmr_score > best_score`),
started from `best_score = -inf`, which the first finite score always
beats: the first element of the scan is the initial best. -/
def argmaxBy {α : Type} (f : α → ℚ) (x : α) (xs : List α) : α :=
  xs.foldl (fun b y => if f b < f y then y else b) x

/-- The redundancy term of `_mmr`: `max(sims_s) if sims_s else 0`, over
the pairwise similarities of the candidate to the already-selected
results.  Pairwise similarities are a function of the two cached vectors,
hence of the two node ids; they are supplied as `simP`. -/
def maxSimTo (simP : String → String → ℚ) (selected : List SR) (c : SR) : ℚ :=
  match selected.map (fun s => simP c.node.id s.node.id) with
  | [] => 0
  | x :: xs => xs.foldl max x

/-- The MMR objective:
`lambda * sim_q - (1 - lambda) * max_sim_s`, with the query similarity a
function of the candidate's cached vector, supplied as `simQ`. -/
def mmrScore (simQ : String → ℚ) (simP : String → String → ℚ) (lam : ℚ)
    (selected : List SR) (c : SR) : ℚ :=
  lam * simQ c.node.id - (1 - lam) * maxSimTo simP selected c

/-- The selection loop of `_mmr`: while fewer than `k` are selected and
candidates remain, move the remaining candidate with the strictly best
MMR score (first wins ties) from `remaining` to `selected`. -/
def mmrSelect (simQ : String → ℚ) (simP : String → String → ℚ) (lam : ℚ) :
    Nat → List SR → List SR → List SR
  | 0, _, _ => []
  | _ + 1, _, [] => []
  | k + 1, selected, r :: rs =>
      let b := argmaxBy (mmrScore simQ simP lam selected) r rs
      b :: mmrSelect simQ simP lam k (selected ++ [b]) ((r :: rs).erase b)

/-- `RetrievalEngine._mmr`: without a query vector or with no candidates,
return the first `k` candidates; otherwise restrict to the candidates
whose node id has a vector in the in-process embedding cache
(`cacheIds`); if none has, return the first `k` candidates; otherwise run
the MMR selection loop over the restricted list.  (When the cache id
list is empty the restriction is empty either way, matching the
`if self._embeddings_cache_ids:` guard.) -/
def mmrApply (queryAvail : Bool) (cacheIds : List String) (simQ : String → ℚ)
    (simP : String → String → ℚ) (lam : ℚ) (candidates : List SR) (k : Nat) :
    List SR :=
  if !queryAvail || candidates.isEmpty then candidates.take k
  else
    let cv := candidates.filter (fun c => cacheIds.contains c.node.id)
    if cv.isEmpty then candidates.take k
    else mmrSelect simQ simP lam k [] cv

/-- The `all_results` dict after the guarded sparse stage of `retrieve`:
the loop over `search_nodes(query, limit=k*2)`, or the empty dict when
`search_nodes` raised (the surrounding `try` logs and continues). -/
def afterSparseOf (st : DBState) (fts : String → Nat → Except String (List String))
    (query : String) (lim : Nat) : List SR :=
  match searchNodes st fts query lim with
  | .ok ns => sparseInto [] 0 ns
  | .error _ => []

/-- The `all_results` dict after the guarded dense stage: the CombSUM
loop over the dense hits when an embedding client is configured and the
stage succeeded; unchanged when the stage raised or there is no client. -/
def afterDenseOf (embClient : Bool) (dense : Except Unit (List (CodeNode × ℚ)))
    (afterSparse : List SR) : List SR :=
  if embClient then
    match dense with
    | .ok hits => denseInto afterSparse hits
    | .error _ => afterSparse
  else afterSparse

/-- `candidates = sorted(all_results.values())[:50]`. -/
def candidatesOf (afterDense : List SR) : List SR :=
  (sortDesc afterDense).take 50

/-- The candidate list after graph expansion: the expansion results whose
ids are not already candidates are appended. -/
def candidates2Of (st : DBState) (candidates : List SR) : List SR :=
  candidates ++ (expandGraph st candidates 5).filter
    (fun e => !((candidates.map (·.node.id)).contains e.node.id))

/-- The reranked list: centrality boost, re-sort, rerank of the top 20. -/
def rerankedOf (st : DBState) (lnFn : Nat → ℚ) (llm : Except Unit (List Int))
    (query : String) (candidates2 : List SR) : List SR :=
  rerank query llm ((sortDesc (boostCentrality st lnFn candidates2)).take 20)

/-- `RetrievalEngine.retrieve`.  External capabilities are oracles:
`fts` is the FTS5 MATCH of `search_nodes`; `dense` is the whole guarded
dense stage (query embedding plus `_dense_search`, whose internal
ANN-versus-brute-force choice is invisible to the caller), consulted only
when an embedding client is configured; `lnFn` is `np.log(1 + ·)`; `llm`
is the LLM rerank call; `embedQueryOk` records whether the *unguarded*
second `embed([query])` before `_mmr` succeeds (it is only evaluated when
`embClient` is true, and its failure propagates out of `retrieve`);
`cacheIds`, `simQ`, `simP` describe the embedding cache as in `mmrApply`;
`lam` is `settings.retrieval_mmr_lambda`.  `k = k or settings.retrieval_k`
maps `k = 0` to the default 10. -/
def retrieve (st : DBState) (fts : String → Nat → Except String (List String))
    (embClient : Bool) (dense : Except Unit (List (CodeNode × ℚ)))
    (lnFn : Nat → ℚ) (llm : Except Unit (List Int)) (embedQueryOk : Bool)
    (cacheIds : List String) (simQ : String → ℚ) (simP : String → String → ℚ)
    (lam : ℚ) (query : String) (k : Nat) : Except Unit (List SR) :=
  if embClient && !embedQueryOk then .error ()
  else .ok (mmrApply embClient cacheIds simQ simP lam
    (rerankedOf st lnFn llm query
      (candidates2Of st (candidatesOf (afterDenseOf embClient dense
        (afterSparseOf st fts query ((if k = 0 then 10 else k) * 2))))))
    (if k = 0 then 10 else k))

/-! ### FileIndexer (`indexing.py`) -/

/-- The statistics dict of `index_workspace`, together with the list of
files whose branch re-chunked them (the `should_index` branch of
`_process_file`).  The `errors` counter is omitted: the model raises no
exceptions.  The `deleted` counter is never incremented by the source. -/
structure IndexStats where
  indexed : Nat
  skipped : Nat
  chunked : List String
deriving DecidableEq, Repr, Inhabited

/-- `FileIndexer._process_file` for one `(rel_path, content)` pair.  The
sha256 content hash is the parameter `hashFn`; the tree-sitter
chunk/edge extraction `_parse_file_content` is the parameter `parse`
(a pure function of the path and content, as the worker contract
requires).  With `force` unset and a stored hash equal to the current
hash the file is skipped and the database is untouched (the skip branch
only *reads* `get_nodes_by_filepath` for repo-map symbols); otherwise the
file's old nodes are deleted, the new nodes batch-inserted, the edges
upserted and, last, the file hash stored.  Returns the new state and the
`should_index` flag. -/
def processFile (parse : String → String → List CodeNode × List EdgeRow)
    (hashFn : String → String) (force : Bool) (st : DBState)
    (relPath content : String) : DBState × Bool :=
  let fileHash := hashFn content
  let shouldIndex := force || getFileHash st relPath != some fileHash
  if shouldIndex then
    let (ns, es) := parse relPath content
    let st1 := deleteNodesByFilepath st relPath
    let st2 := batchAddNodes st1 ns
    let st3 := es.foldl addEdge st2
    (setFileHash st3 relPath fileHash, true)
  else (st, false)

/-- `Database.get_chunks_without_embeddings`: nodes of type other than
`'file'` lacking an `embeddings` row for the model, in table order. -/
def chunksWithoutEmbeddings (st : DBState) (model : String) : List CodeNode :=
  st.nodes.filter (fun n =>
    n.type != "file" &&
      !(st.embeddings.any (fun e => e.node_id == n.id && e.model == model)))

/-- `FileIndexer._generate_embeddings`: with an embedding client
configured, embed every chunk lacking a vector for the model and upsert
the results (the batching into groups of 32 upserts the same rows and is
flattened here); without a client, do nothing.  The subsequent ANN
rebuild writes only the sidecar files on disk, never the database. -/
def generateEmbeddings (toF32 : ℚ → ℚ) (embClient : Bool)
    (embedFn : CodeNode → List ℚ) (model : String) (st : DBState) : DBState :=
  if embClient then
    (chunksWithoutEmbeddings st model).foldl
      (fun s n => upsertEmbedding toF32 s n.id model (embedFn n)) st
  else st

/-- `FileIndexer.index_workspace` from the point where the walk has
produced `files_to_process` (the walk itself only prunes ignored and
oversized paths): process every file, counting `indexed` for a re-chunked
file and `skipped` otherwise, then run the embedding sweep.  The
`index_runs` / `repo_maps` writes touch only tables no claim refers to
and are not modelled. -/
def indexWorkspace (parse : String → String → List CodeNode × List EdgeRow)
    (hashFn : String → String) (force : Bool) (toF32 : ℚ → ℚ)
    (embClient : Bool) (embedFn : CodeNode → List ℚ) (model : String)
    (st : DBState) (files : List (String × String)) : DBState × IndexStats :=
  let step := files.foldl (fun (p : DBState × IndexStats) fc =>
    let r := processFile parse hashFn force p.1 fc.1 fc.2
    (r.1,
     if r.2 then
       { p.2 with indexed := p.2.indexed + 1, chunked := p.2.chunked ++ [fc.1] }
     else { p.2 with skipped := p.2.skipped + 1 })) (st, ⟨0, 0, []⟩)
  (generateEmbeddings toF32 embClient embedFn model step.1, step.2)

/-! ### Shared helper lemmas -/

instance {ε α : Type} [DecidableEq ε] [DecidableEq α] : DecidableEq (Except ε α) :=
  fun a b =>
    match a, b with
    | .ok x, .ok y =>
        if h : x = y then isTrue (by rw [h])
        else isFalse (fun hc => h (by injection hc))
    | .error x, .error y =>
        if h : x = y then isTrue (by rw [h])
        else isFalse (fun hc => h (by injection hc))
    | .ok _, .error _ => isFalse (fun hc => Except.noConfusion hc)
    | .error _, .ok _ => isFalse (fun hc => Except.noConfusion hc)

theorem find?_append_of_forall_not {α : Type} {p : α → Bool} {l₁ l₂ : List α}
    (h : ∀ x ∈ l₁, ¬ p x) : (l₁ ++ l₂).find? p = l₂.find? p := by
  induction l₁ with
  | nil => rfl
  | cons a l ih =>
      have ha : ¬ p a := h a (by simp)
      simp only [List.cons_append, List.find?]
      rw [Bool.not_eq_true] at ha
      rw [ha]
      exact ih (fun x hx => h x (by simp [hx]))

/-! ### C6 — node-id stability -/

theorem createNode_id_eq (fp c : String) (s e : Int) (t n : String) :
    (createNode fp c s e t n).id =
      mkNodeId (createNode fp c s e t n).filepath
        (createNode fp c s e t n).start_line (createNode fp c s e t n).end_line := rfl

/-- C6: the id minted by `_create_node` is a deterministic function of
exactly the stored `(filepath, start_line, end_line)` triple: any two
chunks agreeing on those three fields receive the same id, whatever the
file contents, node kinds or names were — hence re-indexing an unchanged
file reproduces the same ids. -/
theorem c6_node_id_stability
    (fp1 c1 : String) (s1 e1 : Int) (t1 n1 : String)
    (fp2 c2 : String) (s2 e2 : Int) (t2 n2 : String)
    (hfp : (createNode fp1 c1 s1 e1 t1 n1).filepath =
           (createNode fp2 c2 s2 e2 t2 n2).filepath)
    (hs : (createNode fp1 c1 s1 e1 t1 n1).start_line =
          (createNode fp2 c2 s2 e2 t2 n2).start_line)
    (he : (createNode fp1 c1 s1 e1 t1 n1).end_line =
          (createNode fp2 c2 s2 e2 t2 n2).end_line) :
    (createNode fp1 c1 s1 e1 t1 n1).id = (createNode fp2 c2 s2 e2 t2 n2).id := by
  rw [createNode_id_eq, createNode_id_eq, hfp, hs, he]

/-- Witness for C6: two chunks of *different* file contents with the same
filepath and line range get the same id. -/
theorem c6_node_id_stability_witness :
    (createNode "a.py" "x\ny\nz" 0 1 "function_definition" "f").filepath =
      (createNode "a.py" "x\ny" 0 1 "text" "g").filepath ∧
    (createNode "a.py" "x\ny\nz" 0 1 "function_definition" "f").start_line =
      (createNode "a.py" "x\ny" 0 1 "text" "g").start_line ∧
    (createNode "a.py" "x\ny\nz" 0 1 "function_definition" "f").end_line =
      (createNode "a.py" "x\ny" 0 1 "text" "g").end_line ∧
    (createNode "a.py" "x\ny\nz" 0 1 "function_definition" "f").id =
      (createNode "a.py" "x\ny" 0 1 "text" "g").id :=
  ⟨by decide, by decide, by decide,
   c6_node_id_stability "a.py" "x\ny\nz" 0 1 "function_definition" "f"
     "a.py" "x\ny" 0 1 "text" "g" (by decide) (by decide) (by decide)⟩

/-! ### C8 — embedding round-trip -/

/-- C8: `upsert_embedding(id, model, v)` followed by
`get_embedding(id, model)` returns exactly the float32 conversion of `v`
(`toF32` mapped over the entries), of the same length as `v` — the
stored `dim` equals the decoded length, so the defensive truncation never
fires. -/
theorem c8_embedding_roundtrip (toF32 : ℚ → ℚ) (st : DBState)
    (nid model : String) (v : List ℚ) :
    getEmbedding (upsertEmbedding toF32 st nid model v) nid model =
        some (v.map toF32) ∧
      (v.map toF32).length = v.length := by
  constructor
  · unfold getEmbedding upsertEmbedding
    rw [find?_append_of_forall_not]
    · simp
    · intro x hx
      rcases List.mem_filter.mp hx with ⟨-, h2⟩
      intro hpx
      rw [hpx] at h2
      simp at h2
  · simp

/-! ### C3 — deletion cascade -/

/-- C3: after `delete_nodes_by_filepath(filepath)` no node with that
filepath remains, and for every id of a deleted node there is no
full-text shadow entry with that id, no embedding row keyed by that id
under any model, and no edge having that id as either endpoint. -/
theorem c3_deletion_cascade (st : DBState) (fp : String) :
    (∀ n ∈ (deleteNodesByFilepath st fp).nodes, n.filepath ≠ fp) ∧
    (∀ i ∈ deletedIds st fp,
      (∀ r ∈ (deleteNodesByFilepath st fp).fts, r.id ≠ i) ∧
      (∀ e ∈ (deleteNodesByFilepath st fp).embeddings, e.node_id ≠ i) ∧
      (∀ ed ∈ (deleteNodesByFilepath st fp).edges,
        ed.source_id ≠ i ∧ ed.target_id ≠ i)) := by
  unfold deleteNodesByFilepath
  by_cases hempty : (deletedIds st fp).isEmpty
  · simp only [hempty, if_pos]
    constructor
    · intro n hn
      have : (st.nodes.filter (fun n => n.filepath == fp)) = [] := by
        have := List.isEmpty_iff.mp hempty
        unfold deletedIds at this
        exact List.map_eq_nil_iff.mp this
      intro hfp
      have hmem : n ∈ st.nodes.filter (fun n => n.filepath == fp) := by
        rw [List.mem_filter]
        exact ⟨hn, by simp [hfp]⟩
      rw [this] at hmem
      exact absurd hmem (List.not_mem_nil n)
    · intro i hi
      rw [List.isEmpty_iff.mp hempty] at hi
      exact absurd hi (List.not_mem_nil i)
  · simp only [hempty, if_neg, Bool.false_eq_true, not_false_iff]
    refine ⟨?_, ?_⟩
    · intro n hn
      rw [List.mem_filter] at hn
      simpa using hn.2
    · intro i hi
      refine ⟨?_, ?_, ?_⟩
      · intro r hr
        rw [List.mem_filter] at hr
        intro h
        have := hr.2
        rw [h] at this
        simp [hi] at this
      · intro e he
        rw [List.mem_filter] at he
        intro h
        have := he.2
        rw [h] at this
        simp [hi] at this
      · intro ed hed
        rw [List.mem_filter] at hed
        have := hed.2
        constructor
        · intro h
          rw [h] at this
          simp [hi] at this
        · intro h
          rw [h] at this
          simp [hi] at this

/-- Witness for C3: a state holding two nodes of `a.py`, a shadow entry,
an embedding and edges in both directions is fully cascaded. -/
theorem c3_deletion_cascade_witness :
    ("n1" ∈ deletedIds
        ⟨[⟨"n1", "function_definition", "alpha", "a.py", 0, 2, "def alpha(): pass"⟩,
          ⟨"n2", "file", "b.py", "b.py", 0, 9, "whole file"⟩],
         [⟨"n1", "alpha", "def alpha(): pass", "a.py", "function_definition"⟩],
         [⟨"n1", "symbol:beta", "calls", ""⟩, ⟨"n2", "n1", "contains", ""⟩],
         [⟨"n1", "m", [1], 1⟩], [("a.py", "h")]⟩ "a.py") ∧
    (∀ r ∈ (deleteNodesByFilepath
        ⟨[⟨"n1", "function_definition", "alpha", "a.py", 0, 2, "def alpha(): pass"⟩,
          ⟨"n2", "file", "b.py", "b.py", 0, 9, "whole file"⟩],
         [⟨"n1", "alpha", "def alpha(): pass", "a.py", "function_definition"⟩],
         [⟨"n1", "symbol:beta", "calls", ""⟩, ⟨"n2", "n1", "contains", ""⟩],
         [⟨"n1", "m", [1], 1⟩], [("a.py", "h")]⟩ "a.py").fts, r.id ≠ "n1") ∧
    (∀ e ∈ (deleteNodesByFilepath
        ⟨[⟨"n1", "function_definition", "alpha", "a.py", 0, 2, "def alpha(): pass"⟩,
          ⟨"n2", "file", "b.py", "b.py", 0, 9, "whole file"⟩],
         [⟨"n1", "alpha", "def alpha(): pass", "a.py", "function_definition"⟩],
         [⟨"n1", "symbol:beta", "calls", ""⟩, ⟨"n2", "n1", "contains", ""⟩],
         [⟨"n1", "m", [1], 1⟩], [("a.py", "h")]⟩ "a.py").edges,
      e.source_id ≠ "n1" ∧ e.target_id ≠ "n1") :=
  ⟨by decide,
   ((c3_deletion_cascade
      ⟨[⟨"n1", "function_definition", "alpha", "a.py", 0, 2, "def alpha(): pass"⟩,
        ⟨"n2", "file", "b.py", "b.py", 0, 9, "whole file"⟩],
       [⟨"n1", "alpha", "def alpha(): pass", "a.py", "function_definition"⟩],
       [⟨"n1", "symbol:beta", "calls", ""⟩, ⟨"n2", "n1", "contains", ""⟩],
       [⟨"n1", "m", [1], 1⟩], [("a.py", "h")]⟩ "a.py").2 "n1" (by decide)).1,
   ((c3_deletion_cascade
      ⟨[⟨"n1", "function_definition", "alpha", "a.py", 0, 2, "def alpha(): pass"⟩,
        ⟨"n2", "file", "b.py", "b.py", 0, 9, "whole file"⟩],
       [⟨"n1", "alpha", "def alpha(): pass", "a.py", "function_definition"⟩],
       [⟨"n1", "symbol:beta", "calls", ""⟩, ⟨"n2", "n1", "contains", ""⟩],
       [⟨"n1", "m", [1], 1⟩], [("a.py", "h")]⟩ "a.py").2 "n1" (by decide)).2.2⟩

/-! ### C7 — upsert discipline and full-text mirroring -/

/-- A sample symbol node shared by several concrete instances below. -/
def cNode : CodeNode :=
  ⟨"a.py:0-2", "function_definition", "alpha", "a.py", 0, 2, "def alpha(): pass"⟩

/-- A second sample node. -/
def dNode : CodeNode :=
  ⟨"b.py:0-2", "function_definition", "beta", "b.py", 0, 2, "def beta(): alpha()"⟩

/-- Counterexample for C7: writing the same node twice through `add_node`
leaves *two* `nodes_fts` entries with its id, not exactly one — the FTS5
shadow table has no uniqueness constraint, so the `INSERT OR REPLACE`
mirror always appends. -/
theorem c7_counterexample :
    ¬ (((addNode (addNode DBState.empty cNode) cNode).fts.filter
          (fun r => r.id == cNode.id)).length = 1) := by decide

/-- C7 (amended): a node write through `add_node` leaves exactly one row
with the node's id in the `nodes` table — the latest write — and keeps
the table's ids duplicate-free; the full-text shadow instead receives one
*appended* entry per write, so repeated writes of the same id accumulate
duplicate shadow entries, the last of which reflects the latest write. -/
theorem c7_upsert_nodes_fts_append (st : DBState) (n : CodeNode)
    (h : (st.nodes.map (·.id)).Nodup) :
    (addNode st n).nodes.filter (fun m => m.id == n.id) = [n] ∧
    ((addNode st n).nodes.map (·.id)).Nodup ∧
    (addNode st n).fts = st.fts ++ [ftsRowOf n] := by
  refine ⟨?_, ?_, rfl⟩
  · unfold addNode
    simp only [List.filter_append]
    have h1 : (st.nodes.filter (fun m => m.id != n.id)).filter
        (fun m => m.id == n.id) = [] := by
      rw [List.filter_eq_nil_iff]
      intro a ha
      rcases List.mem_filter.mp ha with ⟨-, h2⟩
      intro hpx
      rw [beq_iff_eq] at hpx
      simp [hpx] at h2
    rw [h1]
    simp
  · unfold addNode
    simp only [List.map_append]
    rw [List.nodup_append]
    refine ⟨?_, by simp, ?_⟩
    · exact h.sublist ((List.filter_sublist _).map _)
    · intro a ha hb
      simp only [List.map_cons, List.map_nil, List.mem_singleton] at hb
      subst hb
      rcases List.mem_map.mp ha with ⟨m, hm, hma⟩
      rcases List.mem_filter.mp hm with ⟨-, h2⟩
      rw [hma] at h2
      simp at h2

/-- Witness for C7 (amended): applied to a one-node state. -/
theorem c7_upsert_nodes_fts_append_witness :
    (((DBState.empty.nodes.map (·.id)).Nodup) ∧
      (addNode DBState.empty cNode).nodes.filter (fun m => m.id == cNode.id) =
        [cNode] ∧
      ((addNode DBState.empty cNode).nodes.map (·.id)).Nodup ∧
      (addNode DBState.empty cNode).fts = DBState.empty.fts ++ [ftsRowOf cNode]) :=
  ⟨by decide, c7_upsert_nodes_fts_append DBState.empty cNode (by decide)⟩

/-! ### C5 — lexical query error handling -/

/-- An FTS5 oracle on which every MATCH raises, as happens when the
sanitized form of the query is empty or whitespace (for example the query
`"!!!"`): `MATCH ''` is itself an FTS5 syntax error. -/
def ftsAlwaysFails : String → Nat → Except String (List String) :=
  fun _ _ => .error "fts5: syntax error"

/-- Counterexample for C5: when the sanitized retry also fails,
`search_nodes` does *not* return an empty list — the second
`cursor.execute` is outside any `try`, so the error propagates.  On the
query `"!!!"` (which sanitizes to the empty string, another FTS5 syntax
error) `search_nodes` raises. -/
theorem c5_counterexample :
    searchNodes DBState.empty ftsAlwaysFails "!!!" 10 ≠
      Except.ok ([] : List CodeNode) := by decide

/-- C5 (amended): if the first MATCH on the quote-doubled query raises a
syntax error, `search_nodes` strips every non-alphanumeric,
non-whitespace character and retries exactly once; if the retried query
succeeds its ids are resolved and returned, but if it also fails the
error *propagates* out of `search_nodes` (the caller `retrieve` wraps the
call and degrades to empty sparse results). -/
theorem c5_sanitize_retry_once (st : DBState)
    (fts : String → Nat → Except String (List String)) (q : String)
    (lim : Nat) (msg : String) (h : fts (pySafeQuery q) lim = .error msg) :
    searchNodes st fts q lim =
      match fts (pySanitize (pySafeQuery q)) lim with
      | .ok ids => .ok (ids.filterMap (getNode st))
      | .error e => .error e := by
  unfold searchNodes
  rw [h]

/-- Witness for C5 (amended): an oracle that rejects `"alpha 1!"` but
accepts its sanitized form `"alpha 1"`, resolving to the sample node. -/
def ftsRetryOracle : String → Nat → Except String (List String) :=
  fun s _ => if s = "alpha 1" then .ok ["a.py:0-2"] else .error "fts5: syntax error"

theorem c5_sanitize_retry_once_witness :
    (ftsRetryOracle (pySafeQuery "alpha 1!") 10 = .error "fts5: syntax error") ∧
    searchNodes ⟨[cNode], [], [], [], []⟩ ftsRetryOracle "alpha 1!" 10 =
      match ftsRetryOracle (pySanitize (pySafeQuery "alpha 1!")) 10 with
      | .ok ids => .ok (ids.filterMap (getNode ⟨[cNode], [], [], [], []⟩))
      | .error e => .error e :=
  ⟨by decide,
   c5_sanitize_retry_once ⟨[cNode], [], [], [], []⟩ ftsRetryOracle "alpha 1!" 10
     "fts5: syntax error" (by decide)⟩

/-! ### C1 — candidate fusion in `retrieve` -/

/-- The 0-based rank of the first node with a given id in a candidate
list. -/
def rankOf (i : String) : List CodeNode → Option Nat
  | [] => none
  | n :: rest => if n.id == i then some 0 else (rankOf i rest).map (· + 1)

/-- The 0-based rank of an id in a ranked id list. -/
def rankOfId (i : String) : List String → Option Nat
  | [] => none
  | x :: rest => if x == i then some 0 else (rankOfId i rest).map (· + 1)

/-- Modelled from the spec's words, for comparison with the code: the
Reciprocal Rank Fusion score of a document across ranked lists,
`score(doc) += 1 / (K + rank_in_list + 1)` with constant `K = 60`,
absence from a list contributing 0. -/
def rrfFusedScoreSpec (lists : List (List String)) (doc : String) : ℚ :=
  (lists.map (fun l =>
    match rankOfId doc l with
    | some r => 1 / (60 + (r : ℚ) + 1)
    | none => 0)).sum

/-- The lexical contribution the sparse loop of `retrieve` actually
assigns: `1 / (rank + 1)` for a present id, 0 for an absent one. -/
def sparseContrib (sparse : List CodeNode) (i : String) : ℚ :=
  match rankOf i sparse with
  | some r => 1 / ((r : ℚ) + 1)
  | none => 0

/-- The dense contribution of the CombSUM loop: the sum of the dense
similarities reported for the id. -/
def denseContrib (dense : List (CodeNode × ℚ)) (i : String) : ℚ :=
  ((dense.filter (fun p => p.1.id == i)).map (·.2)).sum

/-- The score the running results dict holds for an id (0 if absent). -/
def baseScore (acc : List SR) (i : String) : ℚ :=
  match acc.find? (fun x => x.node.id == i) with
  | some x => x.score
  | none => 0

/-- The sparse loop's output on a fresh dict over distinct ids, made
explicit. -/
def mkSparseList (i : Nat) : List CodeNode → List SR
  | [] => []
  | n :: rest => ⟨n, 1 / ((i : ℚ) + 1), "sparse"⟩ :: mkSparseList (i + 1) rest

theorem find?_append_left {α : Type} {p : α → Bool} {l₁ l₂ : List α} {x : α}
    (h : l₁.find? p = some x) : (l₁ ++ l₂).find? p = some x := by
  induction l₁ with
  | nil => simp [List.find?] at h
  | cons a l ih =>
      simp only [List.cons_append, List.find?] at h ⊢
      cases hpa : p a with
      | true => rw [hpa] at h; exact h
      | false => rw [hpa] at h; exact ih h

theorem mkSparseList_ids (l : List CodeNode) :
    ∀ i, (mkSparseList i l).map (·.node.id) = l.map (·.id) := by
  induction l with
  | nil => intro i; rfl
  | cons n rest ih => intro i; simp [mkSparseList, ih]

theorem dictInsert_of_absent (acc : List SR) (r : SR)
    (h : acc.any (fun x => x.node.id == r.node.id) = false) :
    dictInsert acc r = acc ++ [r] := by
  unfold dictInsert
  rw [h]
  simp

theorem sparseInto_eq_mkSparseList (l : List CodeNode) :
    ∀ (acc : List SR) (i : Nat), (l.map (·.id)).Nodup →
      (∀ n ∈ l, acc.any (fun x => x.node.id == n.id) = false) →
      sparseInto acc i l = acc ++ mkSparseList i l := by
  induction l with
  | nil => intro acc i _ _; simp [sparseInto, mkSparseList]
  | cons n rest ih =>
      intro acc i hnd habs
      have hhead : acc.any (fun x => x.node.id == n.id) = false :=
        habs n (by simp)
      rw [show sparseInto acc i (n :: rest) =
          sparseInto (dictInsert acc (SR.mk n (1 / ((i : ℚ) + 1)) "sparse")) (i + 1) rest
        from rfl]
      rw [dictInsert_of_absent _ _ hhead]
      have hnd' : (rest.map (·.id)).Nodup := by
        simp only [List.map_cons, List.nodup_cons] at hnd
        exact hnd.2
      have hnotin : ∀ m ∈ rest, n.id ≠ m.id := by
        intro m hm heq
        simp only [List.map_cons, List.nodup_cons] at hnd
        exact hnd.1 (heq ▸ List.mem_map_of_mem (·.id) hm)
      have habs' : ∀ m ∈ rest,
          (acc ++ [SR.mk n (1 / ((i : ℚ) + 1)) "sparse"]).any
            (fun x => x.node.id == m.id) = false := by
        intro m hm
        rw [List.any_append]
        rw [habs m (by simp [hm])]
        simp only [List.any_cons, List.any_nil, Bool.false_or, Bool.or_false]
        exact beq_eq_false_iff_ne.mpr (hnotin m hm)
      rw [ih _ _ hnd' habs']
      simp [mkSparseList, List.append_assoc]

/-- The sparse-loop score of an id when the enumeration starts at `i0`. -/
def sparseContribFrom (i0 : Nat) (sparse : List CodeNode) (i : String) : ℚ :=
  match rankOf i sparse with
  | some r => 1 / ((i0 : ℚ) + (r : ℚ) + 1)
  | none => 0

theorem baseScore_mkSparseList (l : List CodeNode) :
    ∀ (i0 : Nat) (i : String),
      baseScore (mkSparseList i0 l) i = sparseContribFrom i0 l i := by
  induction l with
  | nil => intro i0 i; rfl
  | cons n rest ih =>
      intro i0 i
      by_cases hh : n.id == i
      · simp only [baseScore, mkSparseList, List.find?, hh, sparseContribFrom, rankOf]
        norm_num
      · have hh' : (n.id == i) = false := by
          rw [Bool.not_eq_true] at hh
          exact hh
        simp only [baseScore, mkSparseList, List.find?, hh']
        have hb := ih (i0 + 1) i
        simp only [baseScore] at hb
        rw [hb]
        simp only [sparseContribFrom, rankOf, hh']
        cases hr : rankOf i rest with
        | none => rfl
        | some r =>
            show (1 : ℚ) / (((i0 + 1 : ℕ) : ℚ) + (r : ℚ) + 1) =
              1 / ((i0 : ℚ) + ((r + 1 : ℕ) : ℚ) + 1)
            push_cast
            ring_nf

theorem baseScore_combSumStep (acc : List SR) (n : CodeNode) (s : ℚ)
    (i : String) :
    baseScore (combSumStep acc n s) i =
      baseScore acc i + (if n.id == i then s else 0) := by
  unfold combSumStep
  by_cases hany : acc.any (fun x => x.node.id == n.id)
  · rw [if_pos hany]
    unfold baseScore
    have hcomp : ((fun x : SR => x.node.id == i) ∘ (fun x : SR =>
        if x.node.id == n.id then { x with score := x.score + s, reason := "hybrid" }
        else x)) = (fun x : SR => x.node.id == i) := by
      funext x
      by_cases hx : x.node.id == n.id <;> simp [Function.comp, hx]
    have hmapf : (acc.map (fun x =>
        if x.node.id == n.id then { x with score := x.score + s, reason := "hybrid" }
        else x)).find? (fun x => x.node.id == i) =
        (acc.find? (fun x => x.node.id == i)).map (fun x =>
          if x.node.id == n.id then { x with score := x.score + s, reason := "hybrid" }
          else x) := by
      rw [List.find?_map, hcomp]
    rw [hmapf]
    cases hfind : acc.find? (fun x => x.node.id == i) with
    | none =>
        simp only [Option.map_none]
        have : (n.id == i) = false := by
          by_contra hne
          rw [Bool.not_eq_false, beq_iff_eq] at hne
          rcases List.any_eq_true.mp hany with ⟨x, hx, hxid⟩
          have : acc.find? (fun y => y.node.id == i) ≠ none := by
            rw [Ne, List.find?_eq_none]
            push_neg
            exact ⟨x, hx, by rw [hne] at hxid; exact hxid⟩
          exact this hfind
        rw [this]
        simp
    | some x =>
        have hxi : x.node.id = i := by
          have := List.find?_some hfind
          rwa [beq_iff_eq] at this
        simp only [Option.map_some]
        by_cases hxn : x.node.id == n.id
        · have hx' : x.node.id = n.id := beq_iff_eq.mp hxn
          have : (n.id == i) = true := by
            rw [beq_iff_eq]
            rw [← hx', hxi]
          simp [hxn, hx', this]
        · have hxn' : (x.node.id == n.id) = false := by
            rw [Bool.not_eq_true] at hxn; exact hxn
          have hx' : ¬ (x.node.id = n.id) := beq_eq_false_iff_ne.mp hxn'
          have : (n.id == i) = false := by
            rw [beq_eq_false_iff_ne]
            intro hni
            exact hx' (by rw [hxi, hni])
          simp [hxn', hx', this]
  · rw [if_neg hany]
    unfold baseScore
    have hnone : acc.find? (fun x => x.node.id == n.id) = none := by
      rw [List.find?_eq_none]
      intro x hx
      rw [Bool.not_eq_true]
      by_contra hc
      rw [Bool.not_eq_false] at hc
      exact hany (List.any_eq_true.mpr ⟨x, hx, hc⟩)
    by_cases hni : n.id == i
    · have hfnone : acc.find? (fun x => x.node.id == i) = none := by
        rw [beq_iff_eq] at hni
        rw [← hni]
        exact hnone
      rw [find?_append_of_forall_not (fun x hx => by
        have := List.find?_eq_none.mp hfnone x hx
        exact this)]
      have hni' : (n.id == i) = true := hni
      simp [List.find?, hni', hfnone]
    · have hni' : (n.id == i) = false := by
        rw [Bool.not_eq_true] at hni; exact hni
      cases hfind : acc.find? (fun x => x.node.id == i) with
      | some x =>
          rw [find?_append_left hfind]
          simp [hni']
      | none =>
          rw [find?_append_of_forall_not (fun x hx => by
            have := List.find?_eq_none.mp hfind x hx
            exact this)]
          simp [List.find?, hni']

theorem denseContrib_cons (n : CodeNode) (s : ℚ)
    (rest : List (CodeNode × ℚ)) (i : String) :
    denseContrib ((n, s) :: rest) i =
      (if n.id == i then s else 0) + denseContrib rest i := by
  unfold denseContrib
  by_cases h : n.id == i
  · simp [List.filter_cons, h]
  · have h' : (n.id == i) = false := by rw [Bool.not_eq_true] at h; exact h
    simp [List.filter_cons, h']

theorem combSumStep_ids_nodup (acc : List SR) (n : CodeNode) (s : ℚ)
    (h : (acc.map (·.node.id)).Nodup) :
    ((combSumStep acc n s).map (·.node.id)).Nodup := by
  unfold combSumStep
  by_cases hany : acc.any (fun x => x.node.id == n.id)
  · rw [if_pos hany]
    have : (acc.map (fun x =>
        if x.node.id == n.id then { x with score := x.score + s, reason := "hybrid" }
        else x)).map (·.node.id) = acc.map (·.node.id) := by
      rw [List.map_map]
      congr 1
      funext x
      by_cases hx : x.node.id == n.id <;> simp [Function.comp, hx]
    rw [this]
    exact h
  · rw [if_neg hany]
    rw [List.map_append, List.nodup_append]
    refine ⟨h, by simp, ?_⟩
    intro a ha hb
    simp only [List.map_cons, List.map_nil, List.mem_singleton] at hb
    subst hb
    rcases List.mem_map.mp ha with ⟨x, hx, hxa⟩
    exact hany (List.any_eq_true.mpr ⟨x, hx, by rw [hxa]; exact beq_self_eq_true n.id⟩)

theorem find?_self_of_nodup (acc : List SR) (r : SR)
    (h : (acc.map (·.node.id)).Nodup) (hr : r ∈ acc) :
    acc.find? (fun x => x.node.id == r.node.id) = some r := by
  induction acc with
  | nil => exact absurd hr (List.not_mem_nil r)
  | cons a rest ih =>
      rcases List.mem_cons.mp hr with rfl | hmem
      · simp [List.find?]
      · have hne : a.node.id ≠ r.node.id := by
          simp only [List.map_cons, List.nodup_cons] at h
          intro heq
          exact h.1 (heq ▸ List.mem_map_of_mem (·.node.id) hmem)
        have hf : (a.node.id == r.node.id) = false := beq_eq_false_iff_ne.mpr hne
        simp only [List.find?, hf]
        exact ih (by simp only [List.map_cons, List.nodup_cons] at h; exact h.2) hmem

theorem denseInto_score (dl : List (CodeNode × ℚ)) :
    ∀ (acc : List SR), (acc.map (·.node.id)).Nodup →
      ∀ r ∈ denseInto acc dl,
        r.score = baseScore acc r.node.id + denseContrib dl r.node.id := by
  induction dl with
  | nil =>
      intro acc hnd r hr
      unfold denseInto at hr
      rw [baseScore, find?_self_of_nodup acc r hnd hr]
      simp [denseContrib]
  | cons p rest ih =>
      intro acc hnd r hr
      obtain ⟨n, s⟩ := p
      unfold denseInto at hr
      have := ih (combSumStep acc n s) (combSumStep_ids_nodup acc n s hnd) r hr
      rw [this, baseScore_combSumStep, denseContrib_cons]
      ring

/-- Counterexample for C1: in `RetrievalEngine.retrieve` the fused score
is *not* the K = 60 Reciprocal Rank Fusion sum.  With one lexical hit and
one dense hit the code assigns the lexical candidate `1/(0+1) = 1`
(and the dense candidate its raw similarity `1/2`), whereas the claimed
formula would assign `1/(60+0+1) = 1/61` to each. -/
theorem c1_counterexample :
    ¬ (∀ r ∈ denseInto (sparseInto [] 0 [cNode]) [(dNode, 1 / 2)],
        r.score = rrfFusedScoreSpec [[cNode.id], [dNode.id]] r.node.id) := by
  intro h
  have heval : denseInto (sparseInto [] 0 [cNode]) [(dNode, 1 / 2)] =
      [SR.mk cNode (1 / ((0 : ℚ) + 1)) "sparse", SR.mk dNode (1 / 2) "dense"] := by
    norm_num [denseInto, sparseInto, dictInsert, combSumStep, cNode, dNode]
    decide
  have hmem := h (SR.mk cNode (1 / ((0 : ℚ) + 1)) "sparse")
    (by rw [heval]; exact List.mem_cons_self _ _)
  norm_num [rrfFusedScoreSpec, rankOfId, cNode, dNode] at hmem
  have hne : ¬ (("b.py:0-2" : String) = "a.py:0-2") := by decide
  rw [if_neg hne] at hmem
  norm_num at hmem

/-- C1 (amended): the fusion in `RetrievalEngine.retrieve` is CombSUM,
not RRF: over a lexical list with distinct ids, every fused candidate's
score is `1/(rank_in_lexical_list + 1)` (0 when absent) *plus* the sum of
the dense similarities reported for its id, and the fused candidates are
then sorted by this score descending.  (The `1/(K + rank + 1)`, `K = 60`
fusion exists only in `hybrid_search` of the `apps/api` service
variant.) -/
theorem c1_combsum_fusion (sparse : List CodeNode) (dense : List (CodeNode × ℚ))
    (hs : (sparse.map (·.id)).Nodup) :
    (∀ r ∈ denseInto (sparseInto [] 0 sparse) dense,
      r.score = sparseContrib sparse r.node.id + denseContrib dense r.node.id) ∧
    List.Sorted scoreGe (sortDesc (denseInto (sparseInto [] 0 sparse) dense)) := by
  constructor
  · intro r hr
    have hsp : sparseInto [] 0 sparse = mkSparseList 0 sparse := by
      have := sparseInto_eq_mkSparseList sparse [] 0 hs (by intro n _; rfl)
      simpa using this
    rw [hsp] at hr
    have hnd : ((mkSparseList 0 sparse).map (·.node.id)).Nodup := by
      rw [mkSparseList_ids]
      exact hs
    have := denseInto_score dense (mkSparseList 0 sparse) hnd r hr
    rw [this, baseScore_mkSparseList]
    have : sparseContribFrom 0 sparse r.node.id = sparseContrib sparse r.node.id := by
      unfold sparseContribFrom sparseContrib
      cases rankOf r.node.id sparse with
      | none => rfl
      | some q => norm_num
    rw [this]
  · exact List.sorted_insertionSort scoreGe _

/-- Witness for C1 (amended): the concrete two-list instance. -/
theorem c1_combsum_fusion_witness :
    (([cNode].map (·.id)).Nodup) ∧
    ((∀ r ∈ denseInto (sparseInto [] 0 [cNode]) [(dNode, 1 / 2)],
        r.score = sparseContrib [cNode] r.node.id +
          denseContrib [(dNode, 1 / 2)] r.node.id) ∧
      List.Sorted scoreGe
        (sortDesc (denseInto (sparseInto [] 0 [cNode]) [(dNode, 1 / 2)]))) :=
  ⟨by decide, c1_combsum_fusion [cNode] [(dNode, 1 / 2)] (by decide)⟩

/-! ### C2 — idempotence of re-indexing an unmodified tree -/

theorem processFile_skip (parse : String → String → List CodeNode × List EdgeRow)
    (hashFn : String → String) (st : DBState) (p c : String)
    (h : getFileHash st p = some (hashFn c)) :
    processFile parse hashFn false st p c = (st, false) := by
  unfold processFile
  rw [h]
  simp

theorem indexFold_skip (parse : String → String → List CodeNode × List EdgeRow)
    (hashFn : String → String) (files : List (String × String)) :
    ∀ (st : DBState) (stats : IndexStats),
      (∀ pc ∈ files, getFileHash st pc.1 = some (hashFn pc.2)) →
      files.foldl (fun (p : DBState × IndexStats) fc =>
        let r := processFile parse hashFn false p.1 fc.1 fc.2
        (r.1,
         if r.2 then
           { p.2 with indexed := p.2.indexed + 1, chunked := p.2.chunked ++ [fc.1] }
         else { p.2 with skipped := p.2.skipped + 1 })) (st, stats) =
      (st, ⟨stats.indexed, stats.skipped + files.length, stats.chunked⟩) := by
  induction files with
  | nil =>
      intro st stats _
      simp [List.foldl_nil]
  | cons fc rest ih =>
      intro st stats h
      rw [List.foldl_cons]
      have hskip := processFile_skip parse hashFn st fc.1 fc.2 (h fc (by simp))
      rw [hskip]
      simp only [Bool.false_eq_true, if_false]
      rw [ih st _ (fun pc hpc => h pc (by simp [hpc]))]
      have harith : stats.skipped + 1 + rest.length = stats.skipped + (rest.length + 1) := by
        omega
      simp [harith]

theorem generateEmbeddings_nodes_edges (toF32 : ℚ → ℚ) (embClient : Bool)
    (embedFn : CodeNode → List ℚ) (model : String) (st : DBState) :
    (generateEmbeddings toF32 embClient embedFn model st).nodes = st.nodes ∧
    (generateEmbeddings toF32 embClient embedFn model st).edges = st.edges := by
  unfold generateEmbeddings
  by_cases h : embClient
  · rw [if_pos h]
    generalize chunksWithoutEmbeddings st model = l
    induction l generalizing st with
    | nil => exact ⟨rfl, rfl⟩
    | cons n rest ih =>
        rw [List.foldl_cons]
        have := ih (upsertEmbedding toF32 st n.id model (embedFn n))
        exact ⟨this.1, this.2⟩
  · rw [if_neg h]
    exact ⟨rfl, rfl⟩

/-- C2: re-indexing an unmodified tree is idempotent.  If every file's
stored content hash equals the hash of its current content and the force
flag is unset, `index_workspace` reports `indexed = 0`, counts every
processed file as skipped, re-chunks no file, and leaves the node and
edge tables exactly as they were (the run can still add missing
embeddings during the sweep, and writes its run/repo-map records, but
never touches nodes or edges). -/
theorem c2_reindex_idempotent
    (parse : String → String → List CodeNode × List EdgeRow)
    (hashFn : String → String) (toF32 : ℚ → ℚ) (embClient : Bool)
    (embedFn : CodeNode → List ℚ) (model : String) (st : DBState)
    (files : List (String × String))
    (h : ∀ pc ∈ files, getFileHash st pc.1 = some (hashFn pc.2)) :
    (indexWorkspace parse hashFn false toF32 embClient embedFn model st files).2.indexed = 0 ∧
    (indexWorkspace parse hashFn false toF32 embClient embedFn model st files).2.skipped =
      files.length ∧
    (indexWorkspace parse hashFn false toF32 embClient embedFn model st files).2.chunked = [] ∧
    (indexWorkspace parse hashFn false toF32 embClient embedFn model st files).1.nodes =
      st.nodes ∧
    (indexWorkspace parse hashFn false toF32 embClient embedFn model st files).1.edges =
      st.edges := by
  have hfold := indexFold_skip parse hashFn files st ⟨0, 0, []⟩ h
  unfold indexWorkspace
  rw [hfold]
  have hg := generateEmbeddings_nodes_edges toF32 embClient embedFn model st
  exact ⟨rfl, by simp, rfl, hg.1, hg.2⟩

/-- Witness for C2: one unmodified file over an identity hash. -/
theorem c2_reindex_idempotent_witness :
    (∀ pc ∈ [("a.py", "def alpha(): pass")],
      getFileHash ⟨[cNode], [ftsRowOf cNode], [], [], [("a.py", "def alpha(): pass")]⟩
        pc.1 = some (id pc.2)) ∧
    ((indexWorkspace (fun _ _ => ([], [])) id false id false (fun _ => []) "m"
        ⟨[cNode], [ftsRowOf cNode], [], [], [("a.py", "def alpha(): pass")]⟩
        [("a.py", "def alpha(): pass")]).2.indexed = 0 ∧
      (indexWorkspace (fun _ _ => ([], [])) id false id false (fun _ => []) "m"
        ⟨[cNode], [ftsRowOf cNode], [], [], [("a.py", "def alpha(): pass")]⟩
        [("a.py", "def alpha(): pass")]).2.skipped = 1 ∧
      (indexWorkspace (fun _ _ => ([], [])) id false id false (fun _ => []) "m"
        ⟨[cNode], [ftsRowOf cNode], [], [], [("a.py", "def alpha(): pass")]⟩
        [("a.py", "def alpha(): pass")]).2.chunked = [] ∧
      (indexWorkspace (fun _ _ => ([], [])) id false id false (fun _ => []) "m"
        ⟨[cNode], [ftsRowOf cNode], [], [], [("a.py", "def alpha(): pass")]⟩
        [("a.py", "def alpha(): pass")]).1.nodes = [cNode] ∧
      (indexWorkspace (fun _ _ => ([], [])) id false id false (fun _ => []) "m"
        ⟨[cNode], [ftsRowOf cNode], [], [], [("a.py", "def alpha(): pass")]⟩
        [("a.py", "def alpha(): pass")]).1.edges = []) :=
  ⟨by decide,
   c2_reindex_idempotent (fun _ _ => ([], [])) id id false (fun _ => []) "m"
     ⟨[cNode], [ftsRowOf cNode], [], [], [("a.py", "def alpha(): pass")]⟩
     [("a.py", "def alpha(): pass")] (by decide)⟩

/-! ### C9 / C10 — MMR selection -/

theorem argmaxBy_mem {α : Type} (f : α → ℚ) (x : α) (xs : List α) :
    argmaxBy f x xs ∈ x :: xs := by
  induction xs generalizing x with
  | nil => simp [argmaxBy]
  | cons y ys ih =>
      rw [show argmaxBy f x (y :: ys) = argmaxBy f (if f x < f y then y else x) ys
        from rfl]
      have := ih (if f x < f y then y else x)
      rcases List.mem_cons.mp this with h | h
      · rw [h]
        by_cases hc : f x < f y
        · simp [hc]
        · simp [hc]
      · simp [h]

theorem argmaxBy_ge {α : Type} (f : α → ℚ) (x : α) (xs : List α) :
    ∀ y ∈ x :: xs, f y ≤ f (argmaxBy f x xs) := by
  induction xs generalizing x with
  | nil =>
      intro y hy
      rcases List.mem_cons.mp hy with rfl | h
      · exact le_refl _
      · exact absurd h (List.not_mem_nil y)
  | cons y0 ys ih =>
      intro y hy
      rw [show argmaxBy f x (y0 :: ys) = argmaxBy f (if f x < f y0 then y0 else x) ys
        from rfl]
      have hx' : f x ≤ f (if f x < f y0 then y0 else x) := by
        by_cases hc : f x < f y0
        · rw [if_pos hc]; exact le_of_lt hc
        · rw [if_neg hc]
      have hy0' : f y0 ≤ f (if f x < f y0 then y0 else x) := by
        by_cases hc : f x < f y0
        · rw [if_pos hc]
        · rw [if_neg hc]; exact le_of_not_lt hc
      have hself : f (if f x < f y0 then y0 else x) ≤
          f (argmaxBy f (if f x < f y0 then y0 else x) ys) :=
        ih _ _ (by simp)
      rcases List.mem_cons.mp hy with rfl | h
      · exact le_trans hx' hself
      · rcases List.mem_cons.mp h with rfl | h2
        · exact le_trans hy0' hself
        · exact ih _ y (by simp [h2])

theorem mmrScore_one (simQ : String → ℚ) (simP : String → String → ℚ)
    (selected : List SR) (c : SR) :
    mmrScore simQ simP 1 selected c = simQ c.node.id := by
  unfold mmrScore
  ring

theorem mmrSelect_subset (simQ : String → ℚ) (simP : String → String → ℚ)
    (lam : ℚ) : ∀ (k : Nat) (sel rem : List SR),
    ∀ r ∈ mmrSelect simQ simP lam k sel rem, r ∈ rem := by
  intro k
  induction k with
  | zero => intro sel rem r hr; simp [mmrSelect] at hr
  | succ k ih =>
      intro sel rem r hr
      cases rem with
      | nil => simp [mmrSelect] at hr
      | cons a as =>
          simp only [mmrSelect] at hr
          rcases List.mem_cons.mp hr with rfl | h
          · exact argmaxBy_mem _ a as
          · have := ih _ _ r h
            exact List.erase_subset _ _ this

theorem mmrSelect_perm (simQ : String → ℚ) (simP : String → String → ℚ)
    (lam : ℚ) : ∀ (k : Nat) (sel rem : List SR), rem.length ≤ k →
    (mmrSelect simQ simP lam k sel rem).Perm rem := by
  intro k
  induction k with
  | zero =>
      intro sel rem hlen
      have : rem = [] := List.length_eq_zero.mp (Nat.le_zero.mp hlen)
      subst this
      simp [mmrSelect]
  | succ k ih =>
      intro sel rem hlen
      cases rem with
      | nil => simp [mmrSelect]
      | cons a as =>
          simp only [mmrSelect]
          have hbmem : argmaxBy (mmrScore simQ simP lam sel) a as ∈ a :: as :=
            argmaxBy_mem _ a as
          have hlen' : ((a :: as).erase
              (argmaxBy (mmrScore simQ simP lam sel) a as)).length ≤ k := by
            rw [List.length_erase_of_mem hbmem]
            simp only [List.length_cons] at hlen ⊢
            omega
          have hperm := ih
            (sel ++ [argmaxBy (mmrScore simQ simP lam sel) a as])
            ((a :: as).erase (argmaxBy (mmrScore simQ simP lam sel) a as)) hlen'
          exact (hperm.cons _).trans (List.perm_cons_erase hbmem).symm

theorem mmrSelect_one_sorted (simQ : String → ℚ) (simP : String → String → ℚ) :
    ∀ (k : Nat) (sel rem : List SR),
    rem.Pairwise (fun a b => simQ a.node.id ≠ simQ b.node.id) →
    (mmrSelect simQ simP 1 k sel rem).Pairwise
      (fun a b => simQ b.node.id < simQ a.node.id) := by
  intro k
  induction k with
  | zero => intro sel rem _; simp [mmrSelect]
  | succ k ih =>
      intro sel rem hdist
      cases rem with
      | nil => simp [mmrSelect]
      | cons a as =>
          simp only [mmrSelect]
          have hfun : mmrScore simQ simP 1 sel = fun c => simQ c.node.id :=
            funext (fun c => mmrScore_one simQ simP sel c)
          set b := argmaxBy (mmrScore simQ simP 1 sel) a as with hb
          have hbmem : b ∈ a :: as := argmaxBy_mem _ a as
          have hdist' : (b :: (a :: as).erase b).Pairwise
              (fun a b => simQ a.node.id ≠ simQ b.node.id) :=
            ((List.perm_cons_erase hbmem).pairwise_iff
              (fun hxy => Ne.symm hxy)).mp hdist
          rw [List.pairwise_cons] at hdist'
          refine List.Pairwise.cons ?_ (ih _ _ hdist'.2)
          intro y hy
          have hyrem : y ∈ (a :: as).erase b :=
            mmrSelect_subset simQ simP 1 k _ _ y hy
          have hyle : simQ y.node.id ≤ simQ b.node.id := by
            have := argmaxBy_ge (mmrScore simQ simP 1 sel) a as y
              (List.erase_subset _ _ hyrem)
            rw [hfun] at this
            rw [hb, hfun]
            exact this
          have hyne : simQ b.node.id ≠ simQ y.node.id := hdist'.1 y hyrem
          exact lt_of_le_of_ne hyle (Ne.symm hyne)

/-- C9: with λ = 1 the MMR stage degenerates to pure query-similarity
ordering.  If every candidate's vector is in the embedding cache and the
candidates' query similarities are pairwise distinct, and `k` is at least
the number of candidates, `_mmr` returns exactly the candidates, ordered
by strictly descending query similarity; the redundancy term is
multiplied by `1 − λ = 0` and is ignored. -/
theorem c9_mmr_lambda_one (cands : List SR) (cacheIds : List String)
    (simQ : String → ℚ) (simP : String → String → ℚ) (k : Nat)
    (hall : ∀ c ∈ cands, c.node.id ∈ cacheIds)
    (hdist : cands.Pairwise (fun a b => simQ a.node.id ≠ simQ b.node.id))
    (hk : cands.length ≤ k) :
    (mmrApply true cacheIds simQ simP 1 cands k).Perm cands ∧
    (mmrApply true cacheIds simQ simP 1 cands k).Pairwise
      (fun a b => simQ b.node.id < simQ a.node.id) := by
  unfold mmrApply
  by_cases hcs : cands = []
  · subst hcs
    simp
  · have hcne : cands.isEmpty = false := by
      cases cands with
      | nil => exact absurd rfl hcs
      | cons a as => rfl
    have hfilter : cands.filter (fun c => cacheIds.contains c.node.id) = cands := by
      rw [List.filter_eq_self]
      intro c hc
      exact List.elem_iff.mpr (hall c hc)
    simp only [Bool.not_true, Bool.false_or, hcne, hfilter, Bool.false_eq_true,
      if_false]
    exact ⟨mmrSelect_perm simQ simP 1 k [] cands hk,
      mmrSelect_one_sorted simQ simP k [] cands hdist⟩

/-- Witness for C9: two cached candidates with distinct similarities. -/
theorem c9_mmr_lambda_one_witness :
    ((∀ c ∈ [SR.mk cNode 1 "sparse", SR.mk dNode (1 / 2) "dense"],
        c.node.id ∈ ["a.py:0-2", "b.py:0-2"]) ∧
      ([SR.mk cNode 1 "sparse", SR.mk dNode (1 / 2) "dense"] :
        List SR).Pairwise (fun a b =>
          (fun i => if i = "a.py:0-2" then (1 : ℚ) else 0) a.node.id ≠
          (fun i => if i = "a.py:0-2" then (1 : ℚ) else 0) b.node.id) ∧
      ([SR.mk cNode 1 "sparse", SR.mk dNode (1 / 2) "dense"] : List SR).length ≤ 10) ∧
    ((mmrApply true ["a.py:0-2", "b.py:0-2"]
        (fun i => if i = "a.py:0-2" then (1 : ℚ) else 0) (fun _ _ => 0) 1
        [SR.mk cNode 1 "sparse", SR.mk dNode (1 / 2) "dense"] 10).Perm
      [SR.mk cNode 1 "sparse", SR.mk dNode (1 / 2) "dense"] ∧
      (mmrApply true ["a.py:0-2", "b.py:0-2"]
        (fun i => if i = "a.py:0-2" then (1 : ℚ) else 0) (fun _ _ => 0) 1
        [SR.mk cNode 1 "sparse", SR.mk dNode (1 / 2) "dense"] 10).Pairwise
        (fun a b =>
          (fun i => if i = "a.py:0-2" then (1 : ℚ) else 0) b.node.id <
          (fun i => if i = "a.py:0-2" then (1 : ℚ) else 0) a.node.id)) :=
  ⟨⟨by decide, by
      refine List.Pairwise.cons ?_ (by simp)
      intro b hb
      simp only [List.mem_singleton] at hb
      subst hb
      norm_num [cNode, dNode]
      rw [if_neg (by decide : ¬ (("b.py:0-2" : String) = "a.py:0-2"))]
      norm_num, by decide⟩,
   c9_mmr_lambda_one [SR.mk cNode 1 "sparse", SR.mk dNode (1 / 2) "dense"]
     ["a.py:0-2", "b.py:0-2"] (fun i => if i = "a.py:0-2" then (1 : ℚ) else 0)
     (fun _ _ => 0) 10 (by decide)
     (by
      refine List.Pairwise.cons ?_ (by simp)
      intro b hb
      simp only [List.mem_singleton] at hb
      subst hb
      norm_num [cNode, dNode]
      rw [if_neg (by decide : ¬ (("b.py:0-2" : String) = "a.py:0-2"))]
      norm_num)
     (by decide)⟩

/-- C10 (implicit behaviour, confirmed): whenever a query vector is
available and at least one candidate entering `_mmr` has a cached vector,
the returned list contains *only* candidates whose node id is in the
embedding cache — candidates without a cached vector are dropped, even
when that leaves fewer than `k` results. -/
theorem c10_mmr_drops_uncached (cands : List SR) (cacheIds : List String)
    (simQ : String → ℚ) (simP : String → String → ℚ) (lam : ℚ) (k : Nat)
    (hne : cands.filter (fun c => cacheIds.contains c.node.id) ≠ []) :
    ∀ r ∈ mmrApply true cacheIds simQ simP lam cands k, r.node.id ∈ cacheIds := by
  unfold mmrApply
  have hcne : cands.isEmpty = false := by
    cases hc : cands with
    | nil => rw [hc] at hne; simp at hne
    | cons a as => rfl
  have hcvne : (cands.filter (fun c => cacheIds.contains c.node.id)).isEmpty = false := by
    cases hcv : cands.filter (fun c => cacheIds.contains c.node.id) with
    | nil => exact absurd hcv hne
    | cons a as => rfl
  simp only [Bool.not_true, Bool.false_or, hcne, hcvne, Bool.false_eq_true, if_false]
  intro r hr
  have := mmrSelect_subset simQ simP lam k [] _ r hr
  have hmem := List.mem_filter.mp this
  exact List.elem_iff.mp hmem.2

/-- Witness for C10: one cached candidate, one uncached candidate. -/
theorem c10_mmr_drops_uncached_witness :
    ([SR.mk cNode 1 "sparse", SR.mk dNode (1 / 2) "dense"].filter
        (fun c => (["a.py:0-2"] : List String).contains c.node.id) ≠ []) ∧
    (∀ r ∈ mmrApply true ["a.py:0-2"] (fun _ => 0) (fun _ _ => 0) (1 / 2)
        [SR.mk cNode 1 "sparse", SR.mk dNode (1 / 2) "dense"] 10,
      r.node.id ∈ (["a.py:0-2"] : List String)) :=
  ⟨by decide,
   c10_mmr_drops_uncached [SR.mk cNode 1 "sparse", SR.mk dNode (1 / 2) "dense"]
     ["a.py:0-2"] (fun _ => 0) (fun _ _ => 0) (1 / 2) 10 (by decide)⟩

/-! ### C4 — graceful degradation of `retrieve` -/

/-- The result list carried by a non-raising `retrieve` call. -/
def okList (x : Except Unit (List SR)) : List SR :=
  match x with
  | .ok l => l
  | .error _ => []

theorem dictInsert_mem (acc : List SR) (r x : SR) (h : x ∈ dictInsert acc r) :
    x ∈ acc ∨ x = r := by
  unfold dictInsert at h
  by_cases hany : acc.any (fun y => y.node.id == r.node.id)
  · rw [if_pos hany] at h
    rcases List.mem_map.mp h with ⟨y, hy, hyx⟩
    by_cases hyr : y.node.id == r.node.id
    · rw [if_pos hyr] at hyx
      right
      exact hyx.symm
    · rw [if_neg hyr] at hyx
      left
      exact hyx ▸ hy
  · rw [if_neg hany] at h
    rcases List.mem_append.mp h with h | h
    · left; exact h
    · right; simpa using h

theorem sparseInto_mem (l : List CodeNode) :
    ∀ (acc : List SR) (i : Nat) (x : SR), x ∈ sparseInto acc i l →
      x ∈ acc ∨ x.node ∈ l := by
  induction l with
  | nil =>
      intro acc i x hx
      left
      exact hx
  | cons n rest ih =>
      intro acc i x hx
      rw [show sparseInto acc i (n :: rest) =
          sparseInto (dictInsert acc (SR.mk n (1 / ((i : ℚ) + 1)) "sparse")) (i + 1) rest
        from rfl] at hx
      rcases ih _ _ _ hx with hacc | hrest
      · rcases dictInsert_mem _ _ _ hacc with h | h
        · left; exact h
        · right
          rw [h]
          simp
      · right
        simp [hrest]

theorem dictInsert_length (acc : List SR) (r : SR) :
    acc.length ≤ (dictInsert acc r).length := by
  unfold dictInsert
  by_cases hany : acc.any (fun y => y.node.id == r.node.id)
  · rw [if_pos hany]
    simp
  · rw [if_neg hany]
    simp

theorem sparseInto_length (l : List CodeNode) :
    ∀ (acc : List SR) (i : Nat), acc.length ≤ (sparseInto acc i l).length := by
  induction l with
  | nil => intro acc i; exact le_refl _
  | cons n rest ih =>
      intro acc i
      rw [show sparseInto acc i (n :: rest) =
          sparseInto (dictInsert acc (SR.mk n (1 / ((i : ℚ) + 1)) "sparse")) (i + 1) rest
        from rfl]
      exact le_trans (dictInsert_length acc _) (ih _ _)

theorem sparseInto_ne_nil (l : List CodeNode) (h : l ≠ []) :
    sparseInto [] 0 l ≠ [] := by
  cases l with
  | nil => exact absurd rfl h
  | cons n rest =>
      intro heq
      have h1 : (1 : Nat) ≤ (sparseInto [SR.mk n (1 / ((0 : ℚ) + 1)) "sparse"] 1 rest).length := by
        have := sparseInto_length rest [SR.mk n (1 / ((0 : ℚ) + 1)) "sparse"] 1
        simpa using this
      rw [show sparseInto [] 0 (n :: rest) =
          sparseInto [SR.mk n (1 / ((0 : ℚ) + 1)) "sparse"] 1 rest from by
        rw [show sparseInto ([] : List SR) 0 (n :: rest) =
            sparseInto (dictInsert [] (SR.mk n (1 / ((0 : ℚ) + 1)) "sparse")) 1 rest
          from rfl]
        rfl] at heq
      rw [heq] at h1
      simp at h1

theorem sortDesc_perm (l : List SR) : (sortDesc l).Perm l :=
  List.perm_insertionSort scoreGe l

theorem heuristicBoost_node (q : String) (c : SR) :
    (heuristicBoost q c).node = c.node := by
  unfold heuristicBoost
  dsimp only
  split_ifs <;> rfl

theorem boostCentrality_mem (st : DBState) (lnFn : Nat → ℚ) (l : List SR)
    (x : SR) (h : x ∈ boostCentrality st lnFn l) : ∃ c ∈ l, x.node = c.node := by
  unfold boostCentrality at h
  rcases List.mem_map.mp h with ⟨c, hc, hcx⟩
  refine ⟨c, hc, ?_⟩
  rw [← hcx]
  dsimp only
  split_ifs <;> rfl

theorem boostCentrality_length (st : DBState) (lnFn : Nat → ℚ) (l : List SR) :
    (boostCentrality st lnFn l).length = l.length := by
  unfold boostCentrality
  exact List.length_map _ _

theorem snd_mem_of_mem_enumFrom {α : Type} (l : List α) :
    ∀ (n : Nat) (p : Nat × α), p ∈ List.enumFrom n l → p.2 ∈ l := by
  induction l with
  | nil => intro n p hp; simp [List.enumFrom] at hp
  | cons a as ih =>
      intro n p hp
      rw [show List.enumFrom n (a :: as) = (n, a) :: List.enumFrom (n + 1) as
        from rfl] at hp
      rcases List.mem_cons.mp hp with rfl | hp2
      · simp
      · exact List.mem_cons_of_mem a (ih (n + 1) p hp2)

theorem map_snd_enumFrom {α : Type} (l : List α) :
    ∀ n : Nat, (List.enumFrom n l).map (·.2) = l := by
  induction l with
  | nil => intro n; rfl
  | cons a as ih =>
      intro n
      rw [show List.enumFrom n (a :: as) = (n, a) :: List.enumFrom (n + 1) as
        from rfl]
      simp [ih]

theorem llmRerankStep_mem (top : List SR) (p : List SR × List Nat) (idx : Int)
    (hp : ∀ r ∈ p.1, ∃ c ∈ top, r.node = c.node) :
    ∀ r ∈ (llmRerankStep top p idx).1, ∃ c ∈ top, r.node = c.node := by
  unfold llmRerankStep
  by_cases hin : 0 ≤ idx ∧ idx < (top.length : Int)
  · rw [if_pos hin]
    cases hget : top.get? idx.toNat with
    | none => exact hp
    | some c =>
        intro y hy
        simp only at hy
        rcases List.mem_append.mp hy with hy1 | hy2
        · exact hp y hy1
        · refine ⟨c, List.get?_mem hget, ?_⟩
          simp only [List.mem_singleton] at hy2
          rw [hy2]
  · rw [if_neg hin]
    exact hp

theorem llmRerankStep_len (top : List SR) (p : List SR × List Nat) (idx : Int)
    (hp : p.1.length = p.2.length) :
    ((llmRerankStep top p idx).1).length = ((llmRerankStep top p idx).2).length := by
  unfold llmRerankStep
  by_cases hin : 0 ≤ idx ∧ idx < (top.length : Int)
  · rw [if_pos hin]
    cases hget : top.get? idx.toNat with
    | none => exact hp
    | some c => simp [hp]
  · rw [if_neg hin]
    exact hp

theorem llmRerank_fold_mem (top : List SR) (idxs : List Int) :
    ∀ (p : List SR × List Nat),
      (∀ r ∈ p.1, ∃ c ∈ top, r.node = c.node) →
      ∀ r ∈ (idxs.foldl (llmRerankStep top) p).1, ∃ c ∈ top, r.node = c.node := by
  induction idxs with
  | nil => intro p hp r hr; exact hp r hr
  | cons idx rest ih =>
      intro p hp r hr
      rw [List.foldl_cons] at hr
      exact ih _ (llmRerankStep_mem top p idx hp) r hr

theorem llmRerank_fold_len (top : List SR) (idxs : List Int) :
    ∀ (p : List SR × List Nat), p.1.length = p.2.length →
      ((idxs.foldl (llmRerankStep top) p).1).length =
        ((idxs.foldl (llmRerankStep top) p).2).length := by
  induction idxs with
  | nil => intro p hp; exact hp
  | cons idx rest ih =>
      intro p hp
      rw [List.foldl_cons]
      exact ih _ (llmRerankStep_len top p idx hp)

theorem llmRerankApply_mem (top : List SR) (idxs : List Int) (r : SR)
    (h : r ∈ llmRerankApply top idxs) : ∃ c ∈ top, r.node = c.node := by
  unfold llmRerankApply at h
  rcases List.mem_append.mp h with h1 | h2
  · exact llmRerank_fold_mem top idxs ([], []) (by intro y hy; simp at hy) r h1
  · rcases List.mem_map.mp h2 with ⟨q, hq, hqr⟩
    have hq2 : q ∈ List.enumFrom 0 top := List.mem_of_mem_filter hq
    exact ⟨q.2, snd_mem_of_mem_enumFrom top 0 q hq2, by rw [← hqr]⟩

theorem llmRerankApply_ne_nil (top : List SR) (idxs : List Int)
    (htop : top ≠ []) : llmRerankApply top idxs ≠ [] := by
  unfold llmRerankApply
  intro heq
  rcases List.append_eq_nil.mp heq with ⟨h1, h2⟩
  have hlen := llmRerank_fold_len top idxs ([], []) rfl
  rw [h1] at hlen
  have hseen : (idxs.foldl (llmRerankStep top) ([], [])).2 = [] := by
    have := hlen.symm
    simp only [List.length_nil] at this
    exact List.length_eq_zero.mp this
  rw [hseen] at h2
  have hfil : (List.enumFrom 0 top).filter
      (fun q => !(([] : List Nat).contains q.1)) = List.enumFrom 0 top := by
    rw [List.filter_eq_self]
    intro q _
    rfl
  rw [show top.enum = List.enumFrom 0 top from rfl, hfil, map_snd_enumFrom top 0] at h2
  exact htop h2

theorem rerank_mem (q : String) (llm : Except Unit (List Int))
    (cands : List SR) (x : SR) (h : x ∈ rerank q llm cands) :
    ∃ c ∈ cands, x.node = c.node := by
  have hbase : ∀ y ∈ sortDesc (cands.map (heuristicBoost q)),
      ∃ c ∈ cands, y.node = c.node := by
    intro y hy
    have hy2 : y ∈ cands.map (heuristicBoost q) :=
      (sortDesc_perm _).mem_iff.mp hy
    rcases List.mem_map.mp hy2 with ⟨c, hc, hcy⟩
    exact ⟨c, hc, by rw [← hcy]; exact heuristicBoost_node q c⟩
  unfold rerank at h
  by_cases hemp : ((sortDesc (cands.map (heuristicBoost q))).take 10).isEmpty
  · rw [if_pos hemp] at h
    exact hbase x h
  · rw [if_neg hemp] at h
    cases llm with
    | error e => exact hbase x h
    | ok idxs =>
        simp only at h
        rcases List.mem_append.mp h with h1 | h2
        · rcases llmRerankApply_mem _ _ _ h1 with ⟨c, hc, hxc⟩
          rcases hbase c (List.take_subset 10 _ hc) with ⟨d, hd, hcd⟩
          exact ⟨d, hd, by rw [hxc, hcd]⟩
        · exact hbase x (List.drop_subset 10 _ h2)

theorem rerank_ne_nil (q : String) (llm : Except Unit (List Int))
    (cands : List SR) (hne : cands ≠ []) : rerank q llm cands ≠ [] := by
  have hlen : (sortDesc (cands.map (heuristicBoost q))).length = cands.length := by
    rw [(sortDesc_perm _).length_eq, List.length_map]
  have hcne : sortDesc (cands.map (heuristicBoost q)) ≠ [] := by
    intro heq
    rw [heq] at hlen
    exact hne (List.length_eq_zero.mp hlen.symm)
  have htop : (sortDesc (cands.map (heuristicBoost q))).take 10 ≠ [] := by
    cases hc : sortDesc (cands.map (heuristicBoost q)) with
    | nil => exact absurd hc hcne
    | cons a as => simp
  unfold rerank
  by_cases hemp : ((sortDesc (cands.map (heuristicBoost q))).take 10).isEmpty
  · rw [if_pos hemp]
    exact hcne
  · rw [if_neg hemp]
    cases llm with
    | error e => exact hcne
    | ok idxs =>
        simp only
        intro heq
        rcases List.append_eq_nil.mp heq with ⟨h1, -⟩
        exact llmRerankApply_ne_nil _ idxs htop h1

theorem mmrApply_noquery (cacheIds : List String) (simQ : String → ℚ)
    (simP : String → String → ℚ) (lam : ℚ) (cands : List SR) (k : Nat) :
    mmrApply false cacheIds simQ simP lam cands k = cands.take k := by
  unfold mmrApply
  simp

theorem take_ne_nil_of_ne_nil {α : Type} (l : List α) (k : Nat) (hk : k ≠ 0)
    (hl : l ≠ []) : l.take k ≠ [] := by
  cases l with
  | nil => exact absurd rfl hl
  | cons a as =>
      cases k with
      | zero => exact absurd rfl hk
      | succ k => simp

/-- With no embedding client, `retrieve` reduces to the lexical-plus-graph
pipeline: the dense stage is skipped, the unguarded query embedding
before `_mmr` is never evaluated, and `_mmr` (with `query_vec = None`)
returns the first `k` reranked candidates. -/
theorem retrieve_noclient_eq (st : DBState)
    (fts : String → Nat → Except String (List String))
    (dense : Except Unit (List (CodeNode × ℚ))) (lnFn : Nat → ℚ)
    (llm : Except Unit (List Int)) (embedQueryOk : Bool)
    (cacheIds : List String) (simQ : String → ℚ) (simP : String → String → ℚ)
    (lam : ℚ) (query : String) (k : Nat) :
    retrieve st fts false dense lnFn llm embedQueryOk cacheIds simQ simP lam query k =
      .ok ((rerankedOf st lnFn llm query
        (candidates2Of st (candidatesOf
          (afterSparseOf st fts query ((if k = 0 then 10 else k) * 2))))).take
        (if k = 0 then 10 else k)) := by
  unfold retrieve afterDenseOf
  rw [mmrApply_noquery]
  simp

/-- A two-node database: `alpha` in `a.py`, and `beta` in `b.py` holding
an unresolved `calls` edge onto `symbol:alpha`. -/
def st4 : DBState :=
  ⟨[cNode, dNode], [], [⟨"b.py:0-2", "symbol:alpha", "calls", ""⟩], [], []⟩

/-- An FTS5 oracle whose every MATCH returns the single id of `cNode`. -/
def fts4 : String → Nat → Except String (List String) :=
  fun _ _ => .ok ["a.py:0-2"]

/-- The sparse-stage entry for `cNode` in the concrete run below. -/
def srSparse : SR := SR.mk cNode (1 / (((0 : ℕ) : ℚ) + 1)) "sparse"

/-- The caller-hop expansion entry for `dNode` in the concrete run. -/
def srCaller : SR := SR.mk dNode ((1 / (((0 : ℕ) : ℚ) + 1)) * (1 / 2)) "caller"

/-- The centrality-boosted form of `srSparse` (one incoming call,
`lnFn = 0`). -/
def srBoosted : SR :=
  SR.mk cNode ((1 / (((0 : ℕ) : ℚ) + 1)) * (1 + (1 / 10) * 0)) "sparse +centrality(1)"

theorem sortDesc_pair_eval : sortDesc [srBoosted, srCaller] = [srBoosted, srCaller] := by
  unfold sortDesc
  simp only [List.insertionSort, List.orderedInsert]
  rw [if_pos (show scoreGe srBoosted srCaller from by
    unfold scoreGe srBoosted srCaller
    norm_num)]

theorem retrieve_st4_eval :
    okList (retrieve st4 fts4 false (.error ()) (fun _ => 0) (.error ())
      true [] (fun _ => 0) (fun _ _ => 0) (1 / 2) "zzz" 10) =
    [srBoosted, srCaller] := by
  rw [retrieve_noclient_eq]
  simp only [okList]
  have e1 : afterSparseOf st4 fts4 "zzz" ((if (10 : Nat) = 0 then 10 else 10) * 2) =
      [srSparse] := rfl
  rw [e1]
  have e4 : candidates2Of st4 (candidatesOf [srSparse]) = [srSparse, srCaller] := rfl
  rw [e4]
  unfold rerankedOf
  have e5 : boostCentrality st4 (fun _ => 0) [srSparse, srCaller] =
      [srBoosted, srCaller] := rfl
  rw [e5, sortDesc_pair_eval]
  have e7 : rerank "zzz" (.error ()) (([srBoosted, srCaller] : List SR).take 20) =
      [srBoosted, srCaller] := by
    rw [show ([srBoosted, srCaller] : List SR).take 20 = [srBoosted, srCaller] from rfl]
    unfold rerank
    rw [show ([srBoosted, srCaller] : List SR).map (heuristicBoost "zzz") =
      [srBoosted, srCaller] from rfl]
    rw [sortDesc_pair_eval]
    rfl
  rw [e7]
  rfl

/-- Counterexample for C4: with the embedding client and ANN both
unavailable, the graph-expansion stage still runs against the store, so
the result list is *not* drawn from the lexical candidates alone.  Here
lexical search returns only `cNode`, yet `retrieve` also returns `dNode`,
pulled in as a caller of `alpha` — the claim's "every … graph … stage
either degrades to a no-op or is skipped" fails (no exception is raised
and the result is non-empty, so the rest of the claim holds). -/
theorem c4_counterexample :
    searchNodes st4 fts4 "zzz" 20 = .ok [cNode] ∧
    ¬ (∀ r ∈ okList (retrieve st4 fts4 false (.error ()) (fun _ => 0) (.error ())
        true [] (fun _ => 0) (fun _ _ => 0) (1 / 2) "zzz" 10),
        ∃ n ∈ [cNode], r.node.id = n.id) := by
  constructor
  · decide
  · intro h
    have hb := h srCaller (by rw [retrieve_st4_eval]; simp)
    rcases hb with ⟨n, hn, hid⟩
    simp only [List.mem_singleton] at hn
    subst hn
    revert hid
    decide

/-- C4 (amended): graceful degradation with graph expansion.  With the
embedding client unavailable (which also makes the ANN moot: the index is
only consulted inside the dense stage), if lexical search succeeds with a
non-empty candidate list then `retrieve` raises no exception, returns a
non-empty list, and every returned candidate is either a lexical
candidate or a node added by the graph-expansion stage; the dense and MMR
stages degrade to no-ops and the rerank stage at worst reorders. -/
theorem c4_lexical_graph_degradation (st : DBState)
    (fts : String → Nat → Except String (List String))
    (dense : Except Unit (List (CodeNode × ℚ))) (lnFn : Nat → ℚ)
    (llm : Except Unit (List Int)) (embedQueryOk : Bool)
    (cacheIds : List String) (simQ : String → ℚ) (simP : String → String → ℚ)
    (lam : ℚ) (query : String) (k : Nat) (ns : List CodeNode)
    (hs : searchNodes st fts query ((if k = 0 then 10 else k) * 2) = .ok ns)
    (hne : ns ≠ []) :
    retrieve st fts false dense lnFn llm embedQueryOk cacheIds simQ simP lam query k =
      Except.ok (okList (retrieve st fts false dense lnFn llm embedQueryOk cacheIds
        simQ simP lam query k)) ∧
    okList (retrieve st fts false dense lnFn llm embedQueryOk cacheIds
      simQ simP lam query k) ≠ [] ∧
    ∀ r ∈ okList (retrieve st fts false dense lnFn llm embedQueryOk cacheIds
        simQ simP lam query k),
      (∃ n ∈ ns, r.node.id = n.id) ∨
      r.node.id ∈ (expandGraph st (candidatesOf (sparseInto [] 0 ns)) 5).map
        (·.node.id) := by
  have hAS : afterSparseOf st fts query ((if k = 0 then 10 else k) * 2) =
      sparseInto [] 0 ns := by
    unfold afterSparseOf
    rw [hs]
  have heq := retrieve_noclient_eq st fts dense lnFn llm embedQueryOk cacheIds
    simQ simP lam query k
  rw [hAS] at heq
  have hok : okList (retrieve st fts false dense lnFn llm embedQueryOk cacheIds
      simQ simP lam query k) =
      (rerankedOf st lnFn llm query
        (candidates2Of st (candidatesOf (sparseInto [] 0 ns)))).take
        (if k = 0 then 10 else k) := by
    rw [heq]
    rfl
  have hkne : (if k = 0 then 10 else k) ≠ 0 := by
    by_cases hk : k = 0
    · rw [if_pos hk]; omega
    · rw [if_neg hk]; exact hk
  have hsne : sparseInto [] 0 ns ≠ [] := sparseInto_ne_nil ns hne
  -- candidates = (sortDesc afterSparse).take 50 is non-empty
  have hcne : candidatesOf (sparseInto [] 0 ns) ≠ [] := by
    unfold candidatesOf
    refine take_ne_nil_of_ne_nil _ 50 (by omega) ?_
    intro hnil
    have := (sortDesc_perm (sparseInto [] 0 ns)).length_eq
    rw [hnil] at this
    exact hsne (List.length_eq_zero.mp this.symm)
  have hc2ne : candidates2Of st (candidatesOf (sparseInto [] 0 ns)) ≠ [] := by
    unfold candidates2Of
    intro hnil
    exact hcne (List.append_eq_nil.mp hnil).1
  have hrne : rerankedOf st lnFn llm query
      (candidates2Of st (candidatesOf (sparseInto [] 0 ns))) ≠ [] := by
    unfold rerankedOf
    refine rerank_ne_nil query llm _ ?_
    refine take_ne_nil_of_ne_nil _ 20 (by omega) ?_
    intro hnil
    have hlen := (sortDesc_perm (boostCentrality st lnFn
      (candidates2Of st (candidatesOf (sparseInto [] 0 ns))))).length_eq
    rw [hnil, boostCentrality_length] at hlen
    exact hc2ne (List.length_eq_zero.mp hlen.symm)
  refine ⟨by rw [heq]; rfl, ?_, ?_⟩
  · rw [hok]
    exact take_ne_nil_of_ne_nil _ _ hkne hrne
  · intro r hr
    rw [hok] at hr
    have hr2 : r ∈ rerankedOf st lnFn llm query
        (candidates2Of st (candidatesOf (sparseInto [] 0 ns))) :=
      List.take_subset _ _ hr
    unfold rerankedOf at hr2
    rcases rerank_mem query llm _ r hr2 with ⟨c, hc, hrc⟩
    have hc2 : c ∈ sortDesc (boostCentrality st lnFn
        (candidates2Of st (candidatesOf (sparseInto [] 0 ns)))) :=
      List.take_subset _ _ hc
    have hc3 : c ∈ boostCentrality st lnFn
        (candidates2Of st (candidatesOf (sparseInto [] 0 ns))) :=
      (sortDesc_perm _).mem_iff.mp hc2
    rcases boostCentrality_mem st lnFn _ c hc3 with ⟨d, hd, hcd⟩
    unfold candidates2Of at hd
    rcases List.mem_append.mp hd with hd1 | hd2
    · -- a fused lexical candidate
      left
      have hd3 : d ∈ sortDesc (sparseInto [] 0 ns) := by
        unfold candidatesOf at hd1
        exact List.take_subset _ _ hd1
      have hd4 : d ∈ sparseInto [] 0 ns := (sortDesc_perm _).mem_iff.mp hd3
      rcases sparseInto_mem ns [] 0 d hd4 with habs | hmem
      · exact absurd habs (List.not_mem_nil d)
      · exact ⟨d.node, hmem, by rw [hrc, hcd]⟩
    · -- a graph-expansion addition
      right
      have hd3 : d ∈ expandGraph st (candidatesOf (sparseInto [] 0 ns)) 5 :=
        List.mem_of_mem_filter hd2
      exact List.mem_map.mpr ⟨d, hd3, by rw [hrc, hcd]⟩

/-- Witness for C4 (amended): the concrete degraded run on `st4`. -/
theorem c4_lexical_graph_degradation_witness :
    (searchNodes st4 fts4 "zzz" ((if (10 : Nat) = 0 then 10 else 10) * 2) =
        .ok [cNode] ∧ ([cNode] : List CodeNode) ≠ []) ∧
    (retrieve st4 fts4 false (.error ()) (fun _ => 0) (.error ()) true []
        (fun _ => 0) (fun _ _ => 0) (1 / 2) "zzz" 10 =
      Except.ok (okList (retrieve st4 fts4 false (.error ()) (fun _ => 0)
        (.error ()) true [] (fun _ => 0) (fun _ _ => 0) (1 / 2) "zzz" 10)) ∧
      okList (retrieve st4 fts4 false (.error ()) (fun _ => 0) (.error ()) true []
        (fun _ => 0) (fun _ _ => 0) (1 / 2) "zzz" 10) ≠ [] ∧
      ∀ r ∈ okList (retrieve st4 fts4 false (.error ()) (fun _ => 0) (.error ())
          true [] (fun _ => 0) (fun _ _ => 0) (1 / 2) "zzz" 10),
        (∃ n ∈ [cNode], r.node.id = n.id) ∨
        r.node.id ∈ (expandGraph st4 (candidatesOf (sparseInto [] 0 [cNode])) 5).map
          (·.node.id)) :=
  ⟨⟨by decide, by decide⟩,
   c4_lexical_graph_degradation st4 fts4 (.error ()) (fun _ => 0) (.error ()) true
     [] (fun _ => 0) (fun _ _ => 0) (1 / 2) "zzz" 10 [cNode] (by decide) (by decide)⟩

end JulesRag
